import Mathlib

/-!
Verification of the N-dimensional Minesweeper engine (`mines.py`).

The board and visibility arrays are nested Python lists; we embed them as the
nested-list tree `Vec`.  Coordinates are lists of integers (Python `int`s can
be negative, and Python list indexing wraps negative indices), so coordinate
components are `Int` and indexing goes through `pyNorm`, which implements
Python's list-index normalization.  Functions that can raise in Python
(`IndexError` on an out-of-range index, `TypeError` on subscripting a scalar)
return `Option`, with `none` modelling the raised exception.

Python's recursive flood fill terminates because every recursive call is
preceded by flipping a visibility flag; the embedding `recDig` makes this
explicit with a fuel parameter, and `dig_nd` supplies fuel strictly larger
than the number of cells, which is proved sufficient below.
-/

/-- Board leaf values: the `"."` mine sentinel or a neighbor-mine count. -/
inductive Cell : Type where
  | mine : Cell
  | num (n : Nat) : Cell
  deriving DecidableEq

/-- The `game["state"]` strings `"ongoing"`, `"victory"`, `"defeat"`. -/
inductive GState : Type where
  | ongoing : GState
  | victory : GState
  | defeat : GState
  deriving DecidableEq

/-- A nested Python list with leaves of type `α` (arbitrary nesting depth). -/
inductive Vec (α : Type) : Type where
  | leaf (a : α) : Vec α
  | node (l : List (Vec α)) : Vec α

/-- Python list-index normalization: `l[i]` uses `i` when `0 ≤ i < len`,
`len + i` when `-len ≤ i < 0`, and raises `IndexError` otherwise. -/
def pyNorm (len : Nat) (i : Int) : Option Nat :=
  if 0 ≤ i then
    if i < (len : Int) then some i.toNat else none
  else
    if 0 ≤ i + (len : Int) then some (i + (len : Int)).toNat else none

/-- `get_value(nd_array, coordinates)`: walk the coordinates, indexing one
level per component.  Returns whatever sits there (a leaf for full-length
coordinates, a sub-array for short ones); `none` models Python raising. -/
def get_value {α : Type} : Vec α → List Int → Option (Vec α)
  | a, [] => some a
  | Vec.node l, i :: rest => do
      let k ← pyNorm l.length i
      let sub ← l.get? k
      get_value sub rest
  | Vec.leaf _, _ :: _ => none

/-- `set_value(nd_array, coordinates, value)`: walk all but the last
component, then assign at the last one.  Functional rendition of the in-place
mutation; `none` models Python raising (empty coordinates, out-of-range
index, or subscripting a scalar). -/
def set_value {α : Type} : Vec α → List Int → α → Option (Vec α)
  | Vec.node l, [i], val => do
      let k ← pyNorm l.length i
      some (Vec.node (l.set k (Vec.leaf val)))
  | Vec.node l, i :: rest, val => do
      let k ← pyNorm l.length i
      let sub ← l.get? k
      let sub' ← set_value sub rest val
      some (Vec.node (l.set k sub'))
  | _, _, _ => none

/-- `generate_nd_board(dim, val)`.  (Python raises `IndexError` on an empty
dimension list; that case returns a bare leaf here and is outside every
claim, which all require rank ≥ 1.) -/
def generate_nd_board {α : Type} : List Nat → α → Vec α
  | [d], val => Vec.node (List.replicate d (Vec.leaf val))
  | d :: rest, val => Vec.node (List.replicate d (generate_nd_board rest val))
  | [], val => Vec.leaf val

/-- Python truthiness of what `get_value(visible, coords)` returns: a bool is
itself, a list is truthy when non-empty. -/
def vTruthy : Vec Bool → Bool
  | Vec.leaf b => b
  | Vec.node l => !l.isEmpty

/-- Truthiness through the `Option` layer (`none` can only arise where Python
would already have raised). -/
def optTruthy : Option (Vec Bool) → Bool
  | some v => vTruthy v
  | none => false

/-- The Python test `value == "."` on a board entry: true exactly for the
scalar mine sentinel (a sub-list compares unequal to `"."`). -/
def isMineVal : Vec Cell → Bool
  | Vec.leaf Cell.mine => true
  | _ => false

/-- `value == "."` through the `Option` layer. -/
def isMineOpt : Option (Vec Cell) → Bool
  | some v => isMineVal v
  | none => false

/-- The Python test `value == 0` on a board entry. -/
def isZeroVal : Vec Cell → Bool
  | Vec.leaf (Cell.num 0) => true
  | _ => false

/-- The game dictionary `{"dimensions", "board", "visible", "state"}`. -/
structure Game where
  dimensions : List Nat
  board : Vec Cell
  visible : Vec Bool
  state : GState

/-- The candidate tuples enumerated by `recursive_neighbors` in
`get_neighbors`, in Python's emission order: at each axis try the deltas
`-1, 0, 1` (keeping only in-bounds results), recursing to deeper axes.
Components of the coordinate beyond the rank are kept unchanged, as in the
source. -/
def neighborCands : List Nat → List Int → List (List Int)
  | [], rest => [rest]
  | d :: dims, c :: cs =>
      ([-1, 0, 1] : List Int).flatMap (fun delta =>
        let new_coord := c + delta
        if 0 ≤ new_coord ∧ new_coord < (d : Int) then
          (neighborCands dims cs).map (fun tail => new_coord :: tail)
        else [])
  | _ :: _, [] => []

/-- `get_neighbors(game, coordinates)` (the game dict is only read for its
dimensions, so we pass those directly): all candidate tuples except the
original coordinates. -/
def get_neighbors (dimensions : List Nat) (coordinates : List Int) : List (List Int) :=
  (neighborCands dimensions coordinates).filter (fun coords => coords ≠ coordinates)

/-- `get_all_coordinates(game)` (again reading only the dimensions): the
row-major enumeration of all in-bounds coordinate tuples. -/
def get_all_coordinates : List Nat → List (List Int)
  | [] => [[]]
  | d :: rest =>
      (List.range d).flatMap (fun i =>
        (get_all_coordinates rest).map (fun c => (i : Int) :: c))

/-- The scanning loop of `check_game_state_nd`, one coordinate per step,
carrying the three counters.  The Python source walks the same row-major
order via its `increment_indices` odometer (which raises on a zero
dimension; every claim requires positive dimensions).  A revealed mine
short-circuits to `defeat`. -/
def checkLoop (board : Vec Cell) (visible : Vec Bool) :
    List (List Int) → Nat → Nat → Nat → GState
  | [], num_unrevealed, num_safe, num_revealed_safe =>
      if num_unrevealed = 0 ∨ num_safe = num_revealed_safe then GState.victory
      else GState.ongoing
  | coords :: rest, num_unrevealed, num_safe, num_revealed_safe =>
      let value := get_value board coords
      let is_visible := optTruthy (get_value visible coords)
      if is_visible && isMineOpt value then GState.defeat
      else
        checkLoop board visible rest
          (if !is_visible then num_unrevealed + 1 else num_unrevealed)
          (if !isMineOpt value then num_safe + 1 else num_safe)
          (if !isMineOpt value && is_visible then num_revealed_safe + 1
           else num_revealed_safe)

/-- `check_game_state_nd(game)`: recompute the state from a full scan; only
the `state` field is written. -/
def check_game_state_nd (game : Game) : Game :=
  { game with
    state := checkLoop game.board game.visible
      (get_all_coordinates game.dimensions) 0 0 0 }

/-- The `for mine in mines: set_value(new_board, mine, ".")` loop of
`new_game_nd`. -/
def placeMines : Vec Cell → List (List Int) → Option (Vec Cell)
  | b, [] => some b
  | b, mine :: rest => do
      let b' ← set_value b mine Cell.mine
      placeMines b' rest

/-- The count-filling loop of `new_game_nd`: for each coordinate holding a
non-mine value, count the neighbors currently holding the mine sentinel and
store that count. -/
def fillCounts (dimensions : List Nat) : Vec Cell → List (List Int) → Option (Vec Cell)
  | b, [] => some b
  | b, coords :: rest => do
      let v ← get_value b coords
      if isMineVal v then fillCounts dimensions b rest
      else do
        let neighbors := get_neighbors dimensions coords
        let mine_count :=
          List.countP (fun neighbor => isMineOpt (get_value b neighbor)) neighbors
        let b' ← set_value b coords (Cell.num mine_count)
        fillCounts dimensions b' rest

/-- `new_game_nd(dimensions, mines)`. -/
def new_game_nd (dimensions : List Nat) (mines : List (List Int)) : Option Game := do
  let new_board := generate_nd_board dimensions (Cell.num 0)
  let visible := generate_nd_board dimensions false
  let new_board ← placeMines new_board mines
  let all_coords := get_all_coordinates dimensions
  let new_board ← fillCounts dimensions new_board all_coords
  some { dimensions := dimensions, board := new_board,
         visible := visible, state := GState.ongoing }

/-- The `for neighbor in get_neighbors(...): current_revealed +=
recursive_dig(neighbor)` loop, threading the visibility array and the
running count through a given digging function. -/
def digLoop (digFn : List Int → Vec Bool → Option (Vec Bool × Nat)) :
    List (List Int) → Vec Bool → Nat → Option (Vec Bool × Nat)
  | [], vis, acc => some (vis, acc)
  | neighbor :: rest, vis, acc => do
      let res ← digFn neighbor vis
      digLoop digFn rest res.1 (acc + res.2)

/-- `recursive_dig(coords)` from `dig_nd`, with explicit fuel (Python's
recursion terminates because each nested call is preceded by flipping a
visibility flag from false to true; `fuelSufficient` below shows any fuel
exceeding the number of cells is enough). -/
def recDig (board : Vec Cell) (dimensions : List Nat) :
    Nat → List Int → Vec Bool → Option (Vec Bool × Nat)
  | 0, _, _ => none
  | fuel + 1, coords, vis => do
      let value ← get_value board coords
      let is_vis ← get_value vis coords
      if vTruthy is_vis || isMineVal value then some (vis, 0)
      else do
        let vis' ← set_value vis coords true
        if isZeroVal value then
          digLoop (recDig board dimensions fuel) (get_neighbors dimensions coords) vis' 1
        else some (vis', 1)

/-- Product of the dimension vector: the number of cells of a well-shaped
board.  Used (plus one) as fuel for the flood fill. -/
def listProd : List Nat → Nat
  | [] => 1
  | d :: rest => d * listProd rest

/-- `dig_nd(game, coordinates)`: returns the updated game paired with the
revealed-cell count, `none` modelling a raised exception.  Mirrors the
source's control flow: terminal-state early return, a first
`check_game_state_nd`, the mine branch (sets `defeat`, returns 1 with no
final recheck), the already-visible branch (returns 0), and the reveal
branch with optional flood fill followed by a final `check_game_state_nd`. -/
def dig_nd (game : Game) (coordinates : List Int) : Option (Game × Nat) :=
  if game.state ≠ GState.ongoing then some (game, 0)
  else
    let board := game.board
    let game1 := check_game_state_nd game
    do
      let initial_value ← get_value board coordinates
      if isMineVal initial_value then do
        let vis ← set_value game1.visible coordinates true
        some ({ game1 with visible := vis, state := GState.defeat }, 1)
      else do
        let is_vis ← get_value game1.visible coordinates
        if vTruthy is_vis then some (game1, 0)
        else do
          let vis ← set_value game1.visible coordinates true
          if isZeroVal initial_value then do
            let res ← digLoop
              (recDig board game1.dimensions (listProd game1.dimensions + 1))
              (get_neighbors game1.dimensions coordinates) vis 1
            some (check_game_state_nd { game1 with visible := res.1 }, res.2)
          else
            some (check_game_state_nd { game1 with visible := vis }, 1)

/-- The per-cell glyph of `render_nd`. -/
def renderCell (board : Vec Cell) (visible : Vec Bool) (all_visible : Bool)
    (coords : List Int) : String :=
  match get_value board coords, get_value visible coords with
  | some value, some is_visible =>
      if all_visible || vTruthy is_visible then
        if isZeroVal value then " "
        else if isMineVal value then "."
        else match value with
          | Vec.leaf (Cell.num n) => toString n
          | _ => ""
      else "_"
  | _, _ => ""

/-- The structural recursion of `recursive_render`: extend the coordinate
prefix along each remaining axis, emitting a glyph at full depth. -/
def renderAux (board : Vec Cell) (visible : Vec Bool) (all_visible : Bool)
    (coords : List Int) : List Nat → Vec String
  | [] => Vec.leaf (renderCell board visible all_visible coords)
  | d :: rest =>
      Vec.node ((List.range d).map (fun i =>
        renderAux board visible all_visible (coords ++ [(i : Int)]) rest))

/-- `render_nd(game, all_visible)`: a pure projection of the game into a
nested array of glyphs; the game is only read. -/
def render_nd (game : Game) (all_visible : Bool) : Vec String :=
  renderAux game.board game.visible all_visible [] game.dimensions

/-! ### Specification-side predicates -/

/-- A coordinate is in bounds for a dimension vector: same length, and every
component within `[0, dimension)` on its axis. -/
def inBds : List Nat → List Int → Bool
  | [], [] => true
  | d :: ds, i :: cs => (decide (0 ≤ i) && decide (i < (d : Int))) && inBds ds cs
  | _, _ => false

/-- A nested array has exactly the shape of a dimension vector: a bare leaf
at rank 0, and at rank `d :: ds` a node of exactly `d` children, each shaped
`ds`. -/
def shaped {α : Type} : List Nat → Vec α → Bool
  | [], v => match v with
      | Vec.leaf _ => true
      | Vec.node _ => false
  | d :: ds, v => match v with
      | Vec.node l => decide (l.length = d) && l.all (fun x => shaped ds x)
      | Vec.leaf _ => false

/-- The spec's description of the Chebyshev neighborhood: `n` is obtained
from `c` by adding a per-axis delta in `{-1, 0, +1}`, with every component of
`n` within `[0, dimension)` on its axis (lengths all equal to the rank). -/
def nearBds : List Nat → List Int → List Int → Bool
  | [], [], [] => true
  | d :: ds, c :: cs, n :: ns =>
      (decide (0 ≤ n) && decide (n < (d : Int)) && decide ((n - c).natAbs ≤ 1))
        && nearBds ds cs ns
  | _, _, _ => false

/-- The visibility flag stored at a coordinate (false also covers the
malformed cases a well-shaped game never produces). -/
def isVisibleAt (vis : Vec Bool) (c : List Int) : Bool :=
  match get_value vis c with
  | some (Vec.leaf true) => true
  | _ => false

/-- The cell at a coordinate holds the mine sentinel. -/
def mineAt (board : Vec Cell) (c : List Int) : Bool :=
  isMineOpt (get_value board c)

/-- The cell at a coordinate holds the count `0`. -/
def zeroAt (board : Vec Cell) (c : List Int) : Bool :=
  match get_value board c with
  | some v => isZeroVal v
  | none => false

/-- Number of in-bounds cells whose visibility flag is not set. -/
def numFalse (ds : List Nat) (vis : Vec Bool) : Nat :=
  (get_all_coordinates ds).countP (fun c => !isVisibleAt vis c)

/-- Number of in-bounds cells whose visibility flag transitioned from false
to true between two visibility arrays. -/
def numFlips (ds : List Nat) (vis vis' : Vec Bool) : Nat :=
  (get_all_coordinates ds).countP
    (fun c => isVisibleAt vis' c && !isVisibleAt vis c)

/-- The spec's neighbor-mine count at `c`: the number of in-bounds Chebyshev
neighbors of `c` (per-axis delta in `{-1,0,+1}`, excluding `c` itself,
excluding out-of-bounds results) that belong to the mine list `M`.
`get_all_coordinates` is proved below to enumerate exactly the in-bounds
coordinates, each once. -/
def mineCount (ds : List Nat) (M : List (List Int)) (c : List Int) : Nat :=
  ((get_all_coordinates ds).filter
    (fun n => nearBds ds c n && decide (n ≠ c) && decide (n ∈ M))).length

/-- Flood-fill reachability used to state the dig closure: `Flood B ds vis c
x` holds when there is a chain from `c` to `x` along Chebyshev-adjacent
in-bounds coordinates whose interior nodes (every node except `x`) are
zero-valued and not visible in `vis`.  No condition is imposed on the
endpoints themselves by the chain. -/
inductive Flood (B : Vec Cell) (ds : List Nat) (vis : Vec Bool) (c : List Int) :
    List Int → Prop where
  | refl : Flood B ds vis c c
  | step (y x : List Int) : Flood B ds vis c y → zeroAt B y = true →
      isVisibleAt vis y = false → nearBds ds y x = true → x ≠ y →
      Flood B ds vis c x

/-- Python-style canonicalization of a coordinate: a negative component
addresses from the end of its axis (`-1` is the last cell). -/
def pyCanon (ds : List Nat) (c : List Int) : List Int :=
  List.zipWith (fun (d : Nat) (i : Int) => if i < 0 then i + (d : Int) else i) ds c

/-- A coordinate is in Python's extended bounds: same length as the
dimension vector and every component within `[-d, d)` on its axis, so that
indexing succeeds (negative components wrapping). -/
def inBdsExt : List Nat → List Int → Bool
  | [], [] => true
  | d :: ds, i :: cs =>
      (decide (-(d : Int) ≤ i) && decide (i < (d : Int))) && inBdsExt ds cs
  | _, _ => false

/-- Pointwise visibility ordering on the in-bounds cells: every flag set in
`vis` is still set in `vis'`. -/
def visLe (ds : List Nat) (vis vis' : Vec Bool) : Prop :=
  ∀ x, inBds ds x = true → isVisibleAt vis x = true → isVisibleAt vis' x = true

/-- Every zero-valued cell whose flag transitioned false→true between `vis`
and `vis'` has each of its neighbors either a mine or visible in `vis'`. -/
def newZeroClosed (B : Vec Cell) (ds : List Nat) (vis vis' : Vec Bool) : Prop :=
  ∀ x, inBds ds x = true → isVisibleAt vis' x = true → isVisibleAt vis x = false →
    zeroAt B x = true →
    ∀ nb, nb ∈ get_neighbors ds x → mineAt B nb = true ∨ isVisibleAt vis' nb = true

/-! ### Basic lemmas: indexing, bounds, shapes -/

theorem pyNorm_nonneg {len : Nat} {i : Int} (h0 : 0 ≤ i) (h1 : i < (len : Int)) :
    pyNorm len i = some i.toNat := by
  simp [pyNorm, h0, h1]

theorem inBds_nil_iff {c : List Int} : inBds [] c = true ↔ c = [] := by
  cases c <;> simp [inBds]

theorem inBds_cons_iff {d : Nat} {ds : List Nat} {i : Int} {cs : List Int} :
    inBds (d :: ds) (i :: cs) = true ↔
      0 ≤ i ∧ i < (d : Int) ∧ inBds ds cs = true := by
  simp [inBds, and_assoc]

theorem inBds_cons_ex {d : Nat} {ds : List Nat} {c : List Int}
    (h : inBds (d :: ds) c = true) : ∃ i cs, c = i :: cs := by
  cases c with
  | nil => simp [inBds] at h
  | cons i cs => exact ⟨i, cs, rfl⟩

theorem shaped_nil_iff {α : Type} {v : Vec α} :
    shaped [] v = true ↔ ∃ a, v = Vec.leaf a := by
  cases v <;> simp [shaped]

theorem shaped_cons_iff {α : Type} {d : Nat} {ds : List Nat} {v : Vec α} :
    shaped (d :: ds) v = true ↔
      ∃ l, v = Vec.node l ∧ l.length = d ∧ ∀ x ∈ l, shaped ds x = true := by
  cases v <;> simp [shaped]

theorem get_value_shaped {α : Type} :
    ∀ (ds : List Nat) (v : Vec α) (c : List Int),
      shaped ds v = true → inBds ds c = true →
      ∃ a, get_value v c = some (Vec.leaf a) := by
  intro ds
  induction ds with
  | nil =>
      intro v c hv hc
      obtain ⟨a, rfl⟩ := shaped_nil_iff.mp hv
      obtain rfl := inBds_nil_iff.mp hc
      exact ⟨a, rfl⟩
  | cons d ds ih =>
      intro v c hv hc
      obtain ⟨l, rfl, hlen, hall⟩ := shaped_cons_iff.mp hv
      obtain ⟨i, cs, rfl⟩ := inBds_cons_ex hc
      obtain ⟨h0, h1, hcs⟩ := inBds_cons_iff.mp hc
      have hik : i.toNat < l.length := by rw [hlen]; omega
      have hbound : i < (l.length : Int) := by rw [hlen]; exact h1
      have hget : l[i.toNat]? = some l[i.toNat] := List.getElem?_eq_getElem hik
      have hmem : l[i.toNat] ∈ l := List.getElem_mem hik
      obtain ⟨a, ha⟩ := ih l[i.toNat] cs (hall _ hmem) hcs
      refine ⟨a, ?_⟩
      simp [get_value, pyNorm_nonneg h0 hbound, hget, ha]

theorem get_value_node_cons {α : Type} {l : List (Vec α)} {i : Int} {k : Nat}
    (hk : pyNorm l.length i = some k) (cs : List Int) :
    get_value (Vec.node l) (i :: cs) =
      (l.get? k).bind (fun sub => get_value sub cs) := by
  simp [get_value, hk]

theorem set_value_node_single {α : Type} {l : List (Vec α)} {i : Int} {k : Nat}
    (hk : pyNorm l.length i = some k) (a : α) :
    set_value (Vec.node l) [i] a = some (Vec.node (l.set k (Vec.leaf a))) := by
  simp [set_value, hk]

theorem set_value_node_cons {α : Type} {l : List (Vec α)} {i : Int} {k : Nat}
    (hk : pyNorm l.length i = some k) (c2 : Int) (cs : List Int) (a : α) :
    set_value (Vec.node l) (i :: c2 :: cs) a =
      (l.get? k).bind (fun sub => (set_value sub (c2 :: cs) a).bind
        (fun sub' => some (Vec.node (l.set k sub')))) := by
  simp [set_value, hk]

theorem set_value_spec {α : Type} :
    ∀ (ds : List Nat) (v : Vec α) (c : List Int) (a : α),
      shaped ds v = true → inBds ds c = true → ds ≠ [] →
      ∃ v', set_value v c a = some v' ∧ shaped ds v' = true ∧
        ∀ x, inBds ds x = true →
          get_value v' x = if x = c then some (Vec.leaf a) else get_value v x := by
  intro ds
  induction ds with
  | nil => intro v c a _ _ hne; exact absurd rfl hne
  | cons d ds ih =>
      intro v c a hv hc _
      obtain ⟨l, rfl, hlen, hall⟩ := shaped_cons_iff.mp hv
      obtain ⟨i, cs, rfl⟩ := inBds_cons_ex hc
      obtain ⟨h0, h1, hcs⟩ := inBds_cons_iff.mp hc
      have hik : i.toNat < l.length := by rw [hlen]; omega
      have hbound : i < (l.length : Int) := by rw [hlen]; exact h1
      have hnormi : pyNorm l.length i = some i.toNat := pyNorm_nonneg h0 hbound
      have hget : l.get? i.toNat = some l[i.toNat] := by
        rw [List.get?_eq_getElem?]; exact List.getElem?_eq_getElem hik
      have hmem : l[i.toNat] ∈ l := List.getElem_mem hik
      cases ds with
      | nil =>
          obtain rfl := inBds_nil_iff.mp hcs
          refine ⟨Vec.node (l.set i.toNat (Vec.leaf a)), set_value_node_single hnormi a,
            ?_, ?_⟩
          · refine shaped_cons_iff.mpr ⟨_, rfl, by simp [hlen], ?_⟩
            intro x hx
            rcases List.mem_or_eq_of_mem_set hx with hx' | rfl
            · exact hall _ hx'
            · simp [shaped]
          · intro x hx
            obtain ⟨j, js, rfl⟩ := inBds_cons_ex hx
            obtain ⟨hj0, hj1, hjs⟩ := inBds_cons_iff.mp hx
            obtain rfl := inBds_nil_iff.mp hjs
            have hjbound : j < (l.length : Int) := by rw [hlen]; exact hj1
            have hnormj : pyNorm (l.set i.toNat (Vec.leaf a)).length j = some j.toNat := by
              rw [List.length_set]; exact pyNorm_nonneg hj0 hjbound
            rw [get_value_node_cons hnormj, get_value_node_cons (pyNorm_nonneg hj0 hjbound),
              List.get?_set_of_lt' _ _ hik]
            by_cases hji : j = i
            · subst hji
              simp [get_value]
            · have : i.toNat ≠ j.toNat := by omega
              simp [this, hji]
      | cons d' ds' =>
          obtain ⟨i', cs', rfl⟩ := inBds_cons_ex hcs
          obtain ⟨sub', hset, hsh', hchar⟩ :=
            ih l[i.toNat] (i' :: cs') a (hall _ hmem) hcs (by simp)
          refine ⟨Vec.node (l.set i.toNat sub'), ?_, ?_, ?_⟩
          · rw [set_value_node_cons hnormi, hget]
            simp [hset]
          · refine shaped_cons_iff.mpr ⟨_, rfl, by simp [hlen], ?_⟩
            intro x hx
            rcases List.mem_or_eq_of_mem_set hx with hx' | rfl
            · exact hall _ hx'
            · exact hsh'
          · intro x hx
            obtain ⟨j, js, rfl⟩ := inBds_cons_ex hx
            obtain ⟨hj0, hj1, hjs⟩ := inBds_cons_iff.mp hx
            have hjbound : j < (l.length : Int) := by rw [hlen]; exact hj1
            have hnormj : pyNorm (l.set i.toNat sub').length j = some j.toNat := by
              rw [List.length_set]; exact pyNorm_nonneg hj0 hjbound
            rw [get_value_node_cons hnormj, get_value_node_cons (pyNorm_nonneg hj0 hjbound),
              List.get?_set_of_lt' _ _ hik]
            by_cases hji : j = i
            · subst hji
              simp only [if_true, eq_self_iff_true, Option.some_bind]
              rw [hchar _ hjs]
              simp [List.cons.injEq, List.getElem?_eq_getElem hik]
            · have : i.toNat ≠ j.toNat := by omega
              simp [this, hji]

theorem generate_nd_board_shaped {α : Type} :
    ∀ (ds : List Nat) (val : α), shaped ds (generate_nd_board ds val) = true := by
  intro ds
  induction ds with
  | nil => intro val; simp [generate_nd_board, shaped]
  | cons d rest ih =>
      intro val
      cases rest with
      | nil =>
          refine shaped_cons_iff.mpr ⟨_, rfl, by simp, ?_⟩
          intro x hx
          rw [List.eq_of_mem_replicate hx]
          simp [shaped]
      | cons d' ds' =>
          refine shaped_cons_iff.mpr ⟨_, rfl, by simp, ?_⟩
          intro x hx
          rw [List.eq_of_mem_replicate hx]
          exact ih val

theorem get_generate_nd_board {α : Type} :
    ∀ (ds : List Nat) (val : α) (c : List Int), inBds ds c = true →
      get_value (generate_nd_board ds val) c = some (Vec.leaf val) := by
  intro ds
  induction ds with
  | nil =>
      intro val c hc
      obtain rfl := inBds_nil_iff.mp hc
      rfl
  | cons d rest ih =>
      intro val c hc
      obtain ⟨i, cs, rfl⟩ := inBds_cons_ex hc
      obtain ⟨h0, h1, hcs⟩ := inBds_cons_iff.mp hc
      cases rest with
      | nil =>
          obtain rfl := inBds_nil_iff.mp hcs
          have hik : i.toNat < d := by omega
          have hnorm : pyNorm (List.replicate d (Vec.leaf val) : List (Vec α)).length i
              = some i.toNat := by
            rw [List.length_replicate]
            exact pyNorm_nonneg h0 (by exact_mod_cast h1)
          rw [show generate_nd_board [d] val = Vec.node (List.replicate d (Vec.leaf val))
              from rfl]
          rw [get_value_node_cons hnorm, List.get?_eq_getElem?,
            List.getElem?_replicate_of_lt hik]
          rfl
      | cons d' ds' =>
          have hik : i.toNat < d := by omega
          have hnorm :
              pyNorm (List.replicate d (generate_nd_board (d' :: ds') val)).length i
              = some i.toNat := by
            rw [List.length_replicate]
            exact pyNorm_nonneg h0 (by exact_mod_cast h1)
          rw [show generate_nd_board (d :: d' :: ds') val
              = Vec.node (List.replicate d (generate_nd_board (d' :: ds') val)) from rfl]
          rw [get_value_node_cons hnorm, List.get?_eq_getElem?,
            List.getElem?_replicate_of_lt hik]
          simp [ih val cs hcs]

theorem mem_get_all_coordinates :
    ∀ (ds : List Nat) (c : List Int),
      c ∈ get_all_coordinates ds ↔ inBds ds c = true := by
  intro ds
  induction ds with
  | nil =>
      intro c
      simp [get_all_coordinates, inBds_nil_iff]
  | cons d rest ih =>
      intro c
      simp only [get_all_coordinates, List.mem_flatMap, List.mem_map, List.mem_range]
      constructor
      · rintro ⟨n, hn, cs, hcs, rfl⟩
        refine inBds_cons_iff.mpr ⟨by omega, by exact_mod_cast hn, (ih cs).mp hcs⟩
      · intro hc
        obtain ⟨i, cs, rfl⟩ := inBds_cons_ex hc
        obtain ⟨h0, h1, hcs⟩ := inBds_cons_iff.mp hc
        exact ⟨i.toNat, by omega, cs, (ih cs).mpr hcs, by simp [Int.toNat_of_nonneg h0]⟩

theorem nodup_get_all_coordinates :
    ∀ (ds : List Nat), (get_all_coordinates ds).Nodup := by
  intro ds
  induction ds with
  | nil => simp [get_all_coordinates]
  | cons d rest ih =>
      rw [get_all_coordinates, List.nodup_flatMap]
      constructor
      · intro n _
        exact ih.map (fun a b h => by simpa using h)
      · refine List.Pairwise.imp ?_ (List.nodup_range d)
        intro a b hab
        simp only [Function.onFun, List.disjoint_left]
        rintro x hx hx'
        simp only [List.mem_map] at hx hx'
        obtain ⟨c1, _, rfl⟩ := hx
        obtain ⟨c2, _, heq⟩ := hx'
        apply hab
        have := (List.cons.injEq _ _ _ _).mp heq
        exact_mod_cast this.1.symm

theorem length_get_all_coordinates :
    ∀ (ds : List Nat), (get_all_coordinates ds).length = listProd ds := by
  intro ds
  induction ds with
  | nil => simp [get_all_coordinates, listProd]
  | cons d rest ih =>
      rw [get_all_coordinates, listProd, ← ih]
      simp [List.length_flatMap, Function.comp_def, List.map_const',
        List.sum_replicate, smul_eq_mul, Nat.mul_comm]

theorem nearBds_cons_iff {d : Nat} {ds : List Nat} {c n : Int} {cs ns : List Int} :
    nearBds (d :: ds) (c :: cs) (n :: ns) = true ↔
      0 ≤ n ∧ n < (d : Int) ∧ (n - c).natAbs ≤ 1 ∧ nearBds ds cs ns = true := by
  simp [nearBds, and_assoc]

theorem nearBds_imp_inBds :
    ∀ (ds : List Nat) (c n : List Int), nearBds ds c n = true → inBds ds n = true := by
  intro ds
  induction ds with
  | nil =>
      intro c n h
      cases c <;> cases n <;> simp_all [nearBds, inBds]
  | cons d rest ih =>
      intro c n h
      cases c with
      | nil => cases n <;> simp [nearBds] at h
      | cons i cs =>
          cases n with
          | nil => simp [nearBds] at h
          | cons m ms =>
              obtain ⟨h0, h1, _, h3⟩ := nearBds_cons_iff.mp h
              exact inBds_cons_iff.mpr ⟨h0, h1, ih cs ms h3⟩

theorem nearBds_lengths :
    ∀ (ds : List Nat) (c n : List Int), nearBds ds c n = true →
      c.length = ds.length ∧ n.length = ds.length := by
  intro ds
  induction ds with
  | nil => intro c n h; cases c <;> cases n <;> simp_all [nearBds]
  | cons d rest ih =>
      intro c n h
      cases c with
      | nil => cases n <;> simp [nearBds] at h
      | cons i cs =>
          cases n with
          | nil => simp [nearBds] at h
          | cons m ms =>
              obtain ⟨_, _, _, h3⟩ := nearBds_cons_iff.mp h
              obtain ⟨e1, e2⟩ := ih cs ms h3
              simp [e1, e2]

theorem nearBds_self :
    ∀ (ds : List Nat) (c : List Int), inBds ds c = true → nearBds ds c c = true := by
  intro ds
  induction ds with
  | nil => intro c hc; obtain rfl := inBds_nil_iff.mp hc; rfl
  | cons d rest ih =>
      intro c hc
      obtain ⟨i, cs, rfl⟩ := inBds_cons_ex hc
      obtain ⟨h0, h1, hcs⟩ := inBds_cons_iff.mp hc
      exact nearBds_cons_iff.mpr ⟨h0, h1, by omega, ih cs hcs⟩

theorem mem_neighborCands :
    ∀ (ds : List Nat) (c n : List Int), c.length = ds.length →
      (n ∈ neighborCands ds c ↔ nearBds ds c n = true) := by
  intro ds
  induction ds with
  | nil =>
      intro c n hlen
      have hc : c = [] := List.eq_nil_of_length_eq_zero (by simpa using hlen)
      subst hc
      cases n with
      | nil => simp [neighborCands, nearBds]
      | cons a as => simp [neighborCands, nearBds]
  | cons d rest ih =>
      intro c n hlen
      cases c with
      | nil => simp at hlen
      | cons i cs =>
          have hlen' : cs.length = rest.length := by simpa using hlen
          simp only [neighborCands, List.mem_flatMap]
          constructor
          · rintro ⟨delta, hdelta, hn⟩
            by_cases hcond : 0 ≤ i + delta ∧ i + delta < (d : Int)
            · rw [if_pos hcond] at hn
              obtain ⟨tail, htail, rfl⟩ := List.mem_map.mp hn
              have htail' := (ih cs tail hlen').mp htail
              have hd3 : delta = -1 ∨ delta = 0 ∨ delta = 1 := by
                simpa using hdelta
              refine nearBds_cons_iff.mpr ⟨hcond.1, hcond.2, by omega, htail'⟩
            · rw [if_neg hcond] at hn
              simp at hn
          · intro hn
            cases n with
            | nil => simp [nearBds] at hn
            | cons m ms =>
                obtain ⟨h0, h1, h2, h3⟩ := nearBds_cons_iff.mp hn
                refine ⟨m - i, by simp; omega, ?_⟩
                rw [if_pos ⟨by omega, by omega⟩]
                refine List.mem_map.mpr ⟨ms, (ih cs ms hlen').mpr h3, ?_⟩
                rw [show i + (m - i) = m by ring]

theorem nodup_neighborCands :
    ∀ (ds : List Nat) (c : List Int), (neighborCands ds c).Nodup := by
  intro ds
  induction ds with
  | nil => intro c; simp [neighborCands]
  | cons d rest ih =>
      intro c
      cases c with
      | nil => simp [neighborCands]
      | cons i cs =>
          rw [neighborCands, List.nodup_flatMap]
          constructor
          · intro delta _
            by_cases hcond : 0 ≤ i + delta ∧ i + delta < (d : Int)
            · rw [if_pos hcond]
              exact (ih cs).map (fun a b h => by simpa using h)
            · rw [if_neg hcond]; exact List.nodup_nil
          · have hne : List.Pairwise (fun a b : Int => a ≠ b) [-1, 0, 1] := by decide
            refine hne.imp ?_
            intro a b hab
            simp only [Function.onFun, List.disjoint_left]
            intro x hx hx'
            by_cases hca : 0 ≤ i + a ∧ i + a < (d : Int)
            · rw [if_pos hca] at hx
              obtain ⟨t1, _, rfl⟩ := List.mem_map.mp hx
              by_cases hcb : 0 ≤ i + b ∧ i + b < (d : Int)
              · rw [if_pos hcb] at hx'
                obtain ⟨t2, _, heq⟩ := List.mem_map.mp hx'
                have := (List.cons.injEq _ _ _ _).mp heq
                exact hab (by omega)
              · rw [if_neg hcb] at hx'; simp at hx'
            · rw [if_neg hca] at hx; simp at hx

theorem length_neighborCands :
    ∀ (ds : List Nat) (c : List Int),
      (neighborCands ds c).length ≤ 3 ^ ds.length := by
  intro ds
  induction ds with
  | nil => intro c; simp [neighborCands]
  | cons d rest ih =>
      intro c
      cases c with
      | nil => simp [neighborCands]
      | cons i cs =>
          have hb : ∀ delta : Int,
              (if 0 ≤ i + delta ∧ i + delta < (d : Int) then
                (neighborCands rest cs).map (fun tail => (i + delta) :: tail)
              else []).length ≤ 3 ^ rest.length := by
            intro delta
            by_cases hcond : 0 ≤ i + delta ∧ i + delta < (d : Int)
            · rw [if_pos hcond]; simpa using ih cs
            · rw [if_neg hcond]; simp
          have : neighborCands (d :: rest) (i :: cs) =
              ([-1, 0, 1] : List Int).flatMap (fun delta =>
                if 0 ≤ i + delta ∧ i + delta < (d : Int) then
                  (neighborCands rest cs).map (fun tail => (i + delta) :: tail)
                else []) := rfl
          rw [this]
          simp only [List.flatMap_cons, List.flatMap_nil, List.append_nil,
            List.length_append, List.length_cons, List.length_nil, pow_succ]
          have h1 := hb (-1)
          have h2 := hb 0
          have h3 := hb 1
          omega

theorem mem_get_neighbors {ds : List Nat} {c n : List Int}
    (hlen : c.length = ds.length) :
    n ∈ get_neighbors ds c ↔ nearBds ds c n = true ∧ n ≠ c := by
  rw [get_neighbors, List.mem_filter, mem_neighborCands ds c n hlen]
  simp

theorem nodup_get_neighbors (ds : List Nat) (c : List Int) :
    (get_neighbors ds c).Nodup :=
  (nodup_neighborCands ds c).filter _

theorem inBds_lengths :
    ∀ (ds : List Nat) (c : List Int), inBds ds c = true → c.length = ds.length := by
  intro ds
  induction ds with
  | nil => intro c hc; obtain rfl := inBds_nil_iff.mp hc; rfl
  | cons d rest ih =>
      intro c hc
      obtain ⟨i, cs, rfl⟩ := inBds_cons_ex hc
      obtain ⟨_, _, hcs⟩ := inBds_cons_iff.mp hc
      simp [ih cs hcs]

theorem length_filter_lt_of_mem {α : Type} {l : List α} {p : α → Bool} {c : α}
    (hc : c ∈ l) (hp : ¬ p c = true) : (l.filter p).length < l.length := by
  induction l with
  | nil => simp at hc
  | cons a as ih =>
      rcases List.mem_cons.mp hc with rfl | hmem
      · rw [List.filter_cons_of_neg (by simpa using hp)]
        have := List.length_filter_le p as
        simp; omega
      · by_cases hpa : p a
        · rw [List.filter_cons_of_pos hpa]
          have := ih hmem
          simp; omega
        · rw [List.filter_cons_of_neg (by simpa using hpa)]
          have := List.length_filter_le p as
          have := ih hmem
          simp; omega

theorem length_get_neighbors_le {ds : List Nat} {c : List Int}
    (hc : inBds ds c = true) :
    (get_neighbors ds c).length ≤ 3 ^ ds.length - 1 := by
  have hlen : c.length = ds.length := inBds_lengths ds c hc
  have hmem : c ∈ neighborCands ds c :=
    (mem_neighborCands ds c c hlen).mpr (nearBds_self ds c hc)
  have hlt : (get_neighbors ds c).length < (neighborCands ds c).length :=
    length_filter_lt_of_mem hmem (by simp)
  have := length_neighborCands ds c
  omega

/-! ### Counting and visibility-flag lemmas -/

theorem isVisibleAt_iff {vis : Vec Bool} {c : List Int} :
    isVisibleAt vis c = true ↔ get_value vis c = some (Vec.leaf true) := by
  unfold isVisibleAt
  cases h : get_value vis c with
  | none => simp
  | some v =>
      cases v with
      | leaf b => cases b <;> simp
      | node l => simp

theorem optTruthy_eq_isVisibleAt {ds : List Nat} {vis : Vec Bool} {c : List Int}
    (hv : shaped ds vis = true) (hc : inBds ds c = true) :
    optTruthy (get_value vis c) = isVisibleAt vis c := by
  obtain ⟨b, hb⟩ := get_value_shaped ds vis c hv hc
  cases b <;> simp [optTruthy, vTruthy, isVisibleAt, hb]

theorem countP_le_pointwise {α : Type} {L : List α} {p q : α → Bool}
    (h : ∀ x ∈ L, p x = true → q x = true) : L.countP p ≤ L.countP q := by
  induction L with
  | nil => simp
  | cons a L ih =>
      have ha := h a (by simp)
      have ih' := ih (fun x hx => h x (by simp [hx]))
      rw [List.countP_cons, List.countP_cons]
      by_cases hpa : p a = true
      · simp [hpa, ha hpa]; omega
      · simp only [Bool.not_eq_true] at hpa
        simp [hpa]
        by_cases hqa : q a = true <;> simp [hqa] <;> omega

theorem countP_lt_pointwise {α : Type} {L : List α} {p q : α → Bool} {c : α}
    (h : ∀ x ∈ L, q x = true → p x = true) (hc : c ∈ L)
    (hpc : p c = true) (hqc : q c = false) : L.countP q < L.countP p := by
  induction L with
  | nil => simp at hc
  | cons a L ih =>
      rw [List.countP_cons, List.countP_cons]
      rcases List.mem_cons.mp hc with rfl | hmem
      · have hle := countP_le_pointwise
          (fun x hx => h x (List.mem_cons_of_mem _ hx))
        simp [hpc, hqc]; omega
      · have := ih (fun x hx => h x (List.mem_cons_of_mem _ hx)) hmem
        have ha := h a (List.mem_cons_self a L)
        by_cases hqa : q a = true
        · simp [hqa, ha hqa]; omega
        · simp only [Bool.not_eq_true] at hqa
          simp [hqa]
          by_cases hpa : p a = true <;> simp [hpa] <;> omega

theorem countP_chain_add {α : Type} {L : List α} {p q r : α → Bool}
    (h : ∀ x ∈ L, (p x = true → q x = true) ∧ (q x = true → r x = true)) :
    L.countP (fun x => r x && !p x) =
      L.countP (fun x => r x && !q x) + L.countP (fun x => q x && !p x) := by
  induction L with
  | nil => simp
  | cons a L ih =>
      have ha := h a (by simp)
      have ih' := ih (fun x hx => h x (by simp [hx]))
      simp only [List.countP_cons]
      rw [ih']
      by_cases hp : p a = true <;> by_cases hq : q a = true <;>
        by_cases hr : r a = true <;>
        simp_all <;> omega

theorem countP_flip_one {α : Type} {L : List α} {f g : α → Bool} {c : α}
    (hnd : L.Nodup) (hc : c ∈ L) (h : ∀ x ∈ L, x ≠ c → f x = g x)
    (hfc : f c = false) (hgc : g c = true) :
    L.countP (fun x => g x && !f x) = 1 := by
  induction L with
  | nil => simp at hc
  | cons a L ih =>
      rw [List.countP_cons]
      rcases List.mem_cons.mp hc with rfl | hmem
      · have hz : L.countP (fun x => g x && !f x) = 0 := by
          rw [List.countP_eq_zero]
          intro x hx
          have hxc : x ≠ c := by
            intro hxa; subst hxa
            exact (List.nodup_cons.mp hnd).1 hx
          rw [h x (List.mem_cons_of_mem _ hx) hxc]
          cases g x <;> simp
        simp [hz, hfc, hgc]
      · have hac : a ≠ c := by
          intro hac; subst hac
          exact (List.nodup_cons.mp hnd).1 hmem
        have := ih (List.nodup_cons.mp hnd).2 hmem
          (fun x hx => h x (List.mem_cons_of_mem _ hx))
        rw [h a (List.mem_cons_self a L) hac]
        cases g a <;> simp_all

theorem numFlips_self (ds : List Nat) (vis : Vec Bool) : numFlips ds vis vis = 0 := by
  rw [numFlips, List.countP_eq_zero]
  intro x _
  cases isVisibleAt vis x <;> simp

theorem numFalse_mono {ds : List Nat} {vis vis' : Vec Bool}
    (h : visLe ds vis vis') : numFalse ds vis' ≤ numFalse ds vis := by
  refine countP_le_pointwise ?_
  intro x hx
  have hib := (mem_get_all_coordinates ds x).mp hx
  have := h x hib
  cases hv : isVisibleAt vis x
  · simp
  · simp [this hv]

theorem numFalse_lt_of_flip {ds : List Nat} {vis vis' : Vec Bool} {c : List Int}
    (hc : inBds ds c = true) (h : visLe ds vis vis')
    (hold : isVisibleAt vis c = false) (hnew : isVisibleAt vis' c = true) :
    numFalse ds vis' < numFalse ds vis := by
  refine countP_lt_pointwise ?_ ((mem_get_all_coordinates ds c).mpr hc) ?_ ?_
  · intro x hx
    have hib := (mem_get_all_coordinates ds x).mp hx
    have := h x hib
    cases hv : isVisibleAt vis x
    · simp
    · simp [this hv]
  · simp [hold]
  · simp [hnew]

theorem numFalse_le_listProd (ds : List Nat) (vis : Vec Bool) :
    numFalse ds vis ≤ listProd ds := by
  calc numFalse ds vis ≤ (get_all_coordinates ds).length := List.countP_le_length _
  _ = listProd ds := length_get_all_coordinates ds

theorem numFlips_chain {ds : List Nat} {vis vis1 vis2 : Vec Bool}
    (h1 : visLe ds vis vis1) (h2 : visLe ds vis1 vis2) :
    numFlips ds vis vis2 = numFlips ds vis1 vis2 + numFlips ds vis vis1 := by
  refine countP_chain_add ?_
  intro x hx
  have hib := (mem_get_all_coordinates ds x).mp hx
  exact ⟨h1 x hib, h2 x hib⟩

/-! ### Characterization of the state recomputation -/

theorem checkLoop_spec (board : Vec Cell) (visible : Vec Bool) :
    ∀ (L : List (List Int)) (u s r : Nat),
      checkLoop board visible L u s r =
        if L.any (fun c => optTruthy (get_value visible c)
            && isMineOpt (get_value board c)) then GState.defeat
        else if u + L.countP (fun c => !optTruthy (get_value visible c)) = 0 ∨
            s + L.countP (fun c => !isMineOpt (get_value board c)) =
              r + L.countP (fun c => !isMineOpt (get_value board c)
                && optTruthy (get_value visible c)) then GState.victory
        else GState.ongoing := by
  intro L
  induction L with
  | nil => intro u s r; simp [checkLoop]
  | cons c L ih =>
      intro u s r
      cases hd : (optTruthy (get_value visible c) && isMineOpt (get_value board c)) with
      | true =>
          have e : checkLoop board visible (c :: L) u s r = GState.defeat := by
            simp only [checkLoop]
            rw [if_pos hd]
          rw [e, if_pos]
          simp [List.any_cons, hd]
      | false =>
          have e : checkLoop board visible (c :: L) u s r =
              checkLoop board visible L
                (if (!optTruthy (get_value visible c)) = true then u + 1 else u)
                (if (!isMineOpt (get_value board c)) = true then s + 1 else s)
                (if (!isMineOpt (get_value board c)
                    && optTruthy (get_value visible c)) = true then r + 1 else r) := by
            simp only [checkLoop]
            rw [if_neg (by simp [hd])]
          rw [e, ih]
          have hany : (c :: L).any (fun c => optTruthy (get_value visible c)
              && isMineOpt (get_value board c)) =
              L.any (fun c => optTruthy (get_value visible c)
                && isMineOpt (get_value board c)) := by
            simp [List.any_cons, hd]
          rw [hany]
          refine if_congr Iff.rfl rfl (if_congr ?_ rfl rfl)
          simp only [List.countP_cons]
          cases hv : optTruthy (get_value visible c) <;>
            cases hm : isMineOpt (get_value board c) <;>
            simp [hv, hm] <;> try omega
          constructor
          · intro h
            rcases h with h | h
            · exact Or.inl h
            · exact Or.inr (by omega)
          · intro h
            rcases h with h | h
            · exact Or.inl h
            · exact Or.inr (by omega)

theorem check_state_eq (g : Game) :
    (check_game_state_nd g).state =
      if (get_all_coordinates g.dimensions).any
          (fun c => optTruthy (get_value g.visible c)
            && isMineOpt (get_value g.board c)) then GState.defeat
      else if (get_all_coordinates g.dimensions).countP
            (fun c => !optTruthy (get_value g.visible c)) = 0 ∨
          (get_all_coordinates g.dimensions).countP
            (fun c => !isMineOpt (get_value g.board c)) =
          (get_all_coordinates g.dimensions).countP
            (fun c => !isMineOpt (get_value g.board c)
              && optTruthy (get_value g.visible c)) then GState.victory
      else GState.ongoing := by
  rw [show (check_game_state_nd g).state =
    checkLoop g.board g.visible (get_all_coordinates g.dimensions) 0 0 0 from rfl]
  rw [checkLoop_spec]
  simp

theorem countP_conj_eq_iff {α : Type} {L : List α} {p q : α → Bool} :
    L.countP p = L.countP (fun x => p x && q x) ↔
      ∀ x ∈ L, p x = true → q x = true := by
  constructor
  · intro heq x hx hpx
    by_contra hq
    have hqx : q x = false := by simpa using hq
    have : L.countP (fun x => p x && q x) < L.countP p :=
      countP_lt_pointwise (fun y _ hy => by
        cases hpy : p y
        · rw [hpy] at hy; simp at hy
        · rfl) hx hpx (by simp [hpx, hqx])
    omega
  · intro h
    refine List.countP_congr ?_
    intro x hx
    cases hpx : p x
    · simp
    · simp [h x hx hpx]

theorem mineAt_eq (B : Vec Cell) (c : List Int) :
    mineAt B c = isMineOpt (get_value B c) := rfl

theorem check_state_victory_iff {g : Game}
    (hB : shaped g.dimensions g.board = true)
    (hv : shaped g.dimensions g.visible = true) :
    (check_game_state_nd g).state = GState.victory ↔
      (∀ c, inBds g.dimensions c = true → mineAt g.board c = false →
        isVisibleAt g.visible c = true) ∧
      (∀ c, inBds g.dimensions c = true → mineAt g.board c = true →
        isVisibleAt g.visible c = false) := by
  rw [check_state_eq]
  have hconv : ∀ c ∈ get_all_coordinates g.dimensions,
      optTruthy (get_value g.visible c) = isVisibleAt g.visible c := by
    intro c hc
    exact optTruthy_eq_isVisibleAt hv ((mem_get_all_coordinates _ _).mp hc)
  cases ha : (get_all_coordinates g.dimensions).any
      (fun c => optTruthy (get_value g.visible c)
        && isMineOpt (get_value g.board c)) with
  | true =>
      rw [if_pos rfl]
      simp only [List.any_eq_true] at ha
      obtain ⟨c, hcL, hc⟩ := ha
      rw [Bool.and_eq_true] at hc
      have hcb := (mem_get_all_coordinates _ _).mp hcL
      constructor
      · intro h; cases h
      · rintro ⟨-, h2⟩
        have hmine : mineAt g.board c = true := by rw [mineAt_eq]; exact hc.2
        have hfalse := h2 c hcb hmine
        have hoc := hc.1
        rw [hconv c hcL, hfalse] at hoc
        cases hoc
  | false =>
      rw [if_neg (by simp)]
      simp only [List.any_eq_false] at ha
      have hnomine : ∀ c, inBds g.dimensions c = true →
          mineAt g.board c = true → isVisibleAt g.visible c = false := by
        intro c hcb hm
        have hcL := (mem_get_all_coordinates g.dimensions c).mpr hcb
        have hna := ha c hcL
        rw [mineAt_eq] at hm
        cases hvis : isVisibleAt g.visible c
        · rfl
        · exfalso
          rw [Bool.and_eq_true] at hna
          push_neg at hna
          rw [hconv c hcL, hvis] at hna
          exact absurd hm (hna rfl)
      have hd2 : (get_all_coordinates g.dimensions).countP
            (fun c => !isMineOpt (get_value g.board c)) =
          (get_all_coordinates g.dimensions).countP
            (fun c => !isMineOpt (get_value g.board c)
              && optTruthy (get_value g.visible c)) ↔
          ∀ c, inBds g.dimensions c = true → mineAt g.board c = false →
            isVisibleAt g.visible c = true := by
        rw [countP_conj_eq_iff]
        constructor
        · intro h c hcb hm
          have hcL := (mem_get_all_coordinates g.dimensions c).mpr hcb
          rw [mineAt_eq] at hm
          have := h c hcL (by simp [hm])
          rw [hconv c hcL] at this
          exact this
        · intro h c hcL hm
          have hcb := (mem_get_all_coordinates g.dimensions c).mp hcL
          rw [hconv c hcL]
          refine h c hcb ?_
          rw [mineAt_eq]
          simpa using hm
      constructor
      · intro hvic
        have hcond : (get_all_coordinates g.dimensions).countP
              (fun c => !optTruthy (get_value g.visible c)) = 0 ∨
            (get_all_coordinates g.dimensions).countP
              (fun c => !isMineOpt (get_value g.board c)) =
            (get_all_coordinates g.dimensions).countP
              (fun c => !isMineOpt (get_value g.board c)
                && optTruthy (get_value g.visible c)) := by
          by_contra hcon
          rw [if_neg hcon] at hvic
          cases hvic
        refine ⟨?_, hnomine⟩
        rcases hcond with h | h
        · rw [List.countP_eq_zero] at h
          intro c hcb _
          have hcL := (mem_get_all_coordinates g.dimensions c).mpr hcb
          have := h c hcL
          rw [hconv c hcL] at this
          simpa using this
        · exact hd2.mp h
      · rintro ⟨h1, -⟩
        rw [if_pos (Or.inr (hd2.mpr h1))]

/-! ### Flood-reachability lemmas -/

theorem Flood_inBds {B : Vec Cell} {ds : List Nat} {vis : Vec Bool}
    {c x : List Int} (h : Flood B ds vis c x) (hc : inBds ds c = true) :
    inBds ds x = true := by
  induction h with
  | refl => exact hc
  | step y x _ _ _ hn _ _ => exact nearBds_imp_inBds ds y x hn

theorem Flood_trans {B : Vec Cell} {ds : List Nat} {vis : Vec Bool}
    {c y x : List Int} (h1 : Flood B ds vis c y) (h2 : Flood B ds vis y x) :
    Flood B ds vis c x := by
  induction h2 with
  | refl => exact h1
  | step y' x' _ hz hv hn hne ih => exact Flood.step y' x' ih hz hv hn hne

theorem Flood_anti {B : Vec Cell} {ds : List Nat} {vis vis' : Vec Bool}
    {c x : List Int} (hle : visLe ds vis vis') (hc : inBds ds c = true)
    (h : Flood B ds vis' c x) : Flood B ds vis c x := by
  induction h with
  | refl => exact Flood.refl
  | step y x hf hz hv hn hne ih =>
      refine Flood.step y x ih hz ?_ hn hne
      cases hvy : isVisibleAt vis y
      · rfl
      · have hyb : inBds ds y = true := Flood_inBds hf hc
        rw [hle y hyb hvy] at hv
        cases hv

theorem isVisibleAt_after_set {ds : List Nat} {vis vis1 : Vec Bool} {c : List Int}
    (hchar : ∀ x, inBds ds x = true →
      get_value vis1 x = if x = c then some (Vec.leaf true) else get_value vis x) :
    ∀ x, inBds ds x = true →
      isVisibleAt vis1 x = if x = c then true else isVisibleAt vis x := by
  intro x hx
  by_cases hxc : x = c
  · subst hxc
    rw [if_pos rfl, isVisibleAt_iff, hchar x hx, if_pos rfl]
  · rw [if_neg hxc]
    unfold isVisibleAt
    rw [hchar x hx, if_neg hxc]

/-! ### The flood-fill recursion: full specification -/

theorem digLoop_spec (B : Vec Cell) (ds : List Nat) (fuel : Nat)
    (H : ∀ (vis : Vec Bool) (c : List Int),
      shaped ds vis = true → inBds ds c = true → numFalse ds vis < fuel →
      ∃ vis' n, recDig B ds fuel c vis = some (vis', n) ∧
        shaped ds vis' = true ∧ visLe ds vis vis' ∧
        (∀ x, inBds ds x = true → isVisibleAt vis' x = true →
          isVisibleAt vis x = true ∨ (Flood B ds vis c x ∧ mineAt B x = false)) ∧
        n = numFlips ds vis vis' ∧
        newZeroClosed B ds vis vis' ∧
        (mineAt B c = true ∨ isVisibleAt vis' c = true)) :
    ∀ (L : List (List Int)) (vis : Vec Bool) (acc : Nat),
      shaped ds vis = true → (∀ nb ∈ L, inBds ds nb = true) →
      numFalse ds vis < fuel →
      ∃ vis', digLoop (recDig B ds fuel) L vis acc
          = some (vis', acc + numFlips ds vis vis') ∧
        shaped ds vis' = true ∧ visLe ds vis vis' ∧
        (∀ x, inBds ds x = true → isVisibleAt vis' x = true →
          isVisibleAt vis x = true ∨
            (∃ nb ∈ L, Flood B ds vis nb x ∧ mineAt B x = false)) ∧
        newZeroClosed B ds vis vis' ∧
        (∀ nb ∈ L, mineAt B nb = true ∨ isVisibleAt vis' nb = true) := by
  intro L
  induction L with
  | nil =>
      intro vis acc hsh _ _
      refine ⟨vis, ?_, hsh, fun x _ h => h, fun x _ h => Or.inl h, ?_, by simp⟩
      · simp [digLoop, numFlips_self]
      · intro x _ h1 h2
        rw [h1] at h2; cases h2
  | cons nb L ih =>
      intro vis acc hsh hL hfuel
      obtain ⟨vis1, n1, hrun1, hsh1, hle1, hsound1, hn1, hcl1, hproc1⟩ :=
        H vis nb hsh (hL nb (List.mem_cons_self nb L)) hfuel
      have hfuel1 : numFalse ds vis1 < fuel :=
        lt_of_le_of_lt (numFalse_mono hle1) hfuel
      have hL' : ∀ x ∈ L, inBds ds x = true :=
        fun x hx => hL x (List.mem_cons_of_mem _ hx)
      obtain ⟨vis', hrun2, hsh', hle2, hsound2, hcl2, hproc2⟩ :=
        ih vis1 (acc + n1) hsh1 hL' hfuel1
      have hcount : (acc + n1) + numFlips ds vis1 vis' =
          acc + numFlips ds vis vis' := by
        rw [numFlips_chain hle1 hle2, hn1]
        omega
      refine ⟨vis', ?_, hsh', ?_, ?_, ?_, ?_⟩
      · rw [show digLoop (recDig B ds fuel) (nb :: L) vis acc
            = (recDig B ds fuel nb vis).bind
                (fun res => digLoop (recDig B ds fuel) L res.1 (acc + res.2))
            from rfl]
        rw [hrun1]
        simpa [hcount] using hrun2
      · exact fun x hx h => hle2 x hx (hle1 x hx h)
      · intro x hx hvx
        rcases hsound2 x hx hvx with h | ⟨nb', hnb', hf, hm⟩
        · rcases hsound1 x hx h with h' | ⟨hf, hm⟩
          · exact Or.inl h'
          · exact Or.inr ⟨nb, List.mem_cons_self nb L, hf, hm⟩
        · refine Or.inr ⟨nb', List.mem_cons_of_mem _ hnb', ?_, hm⟩
          exact Flood_anti hle1 (hL' nb' hnb') hf
      · intro x hx hnew hold hz nb2 hnb2
        cases hvx1 : isVisibleAt vis1 x with
        | true =>
            rcases hcl1 x hx hvx1 hold hz nb2 hnb2 with h | h
            · exact Or.inl h
            · refine Or.inr (hle2 nb2 ?_ h)
              have hlen : x.length = ds.length := inBds_lengths ds x hx
              have := (mem_get_neighbors hlen).mp hnb2
              exact nearBds_imp_inBds ds x nb2 this.1
        | false => exact hcl2 x hx hnew hvx1 hz nb2 hnb2
      · intro nb' hmem
        rcases List.mem_cons.mp hmem with rfl | hmem'
        · rcases hproc1 with h | h
          · exact Or.inl h
          · exact Or.inr (hle2 nb' (hL nb' (List.mem_cons_self nb' L)) h)
        · exact hproc2 nb' hmem'

theorem recDig_succ_eq (B : Vec Cell) (ds : List Nat) (fuel : Nat)
    (c : List Int) (vis : Vec Bool) (val : Vec Cell) (b : Vec Bool)
    (hval : get_value B c = some val) (hb : get_value vis c = some b) :
    recDig B ds (fuel + 1) c vis =
      if (vTruthy b || isMineVal val) = true then some (vis, 0)
      else (set_value vis c true).bind (fun vis1 =>
        if isZeroVal val = true
        then digLoop (recDig B ds fuel) (get_neighbors ds c) vis1 1
        else some (vis1, 1)) := by
  rw [show recDig B ds (fuel + 1) c vis =
      (get_value B c).bind (fun value => (get_value vis c).bind (fun is_vis =>
        if (vTruthy is_vis || isMineVal value) = true then some (vis, 0)
        else (set_value vis c true).bind (fun vis1 =>
          if isZeroVal value = true
          then digLoop (recDig B ds fuel) (get_neighbors ds c) vis1 1
          else some (vis1, 1)))) from rfl, hval, hb]
  rfl

theorem recDig_spec (B : Vec Cell) (ds : List Nat) (hB : shaped ds B = true)
    (hne : ds ≠ []) :
    ∀ (fuel : Nat) (vis : Vec Bool) (c : List Int),
      shaped ds vis = true → inBds ds c = true → numFalse ds vis < fuel →
      ∃ vis' n, recDig B ds fuel c vis = some (vis', n) ∧
        shaped ds vis' = true ∧ visLe ds vis vis' ∧
        (∀ x, inBds ds x = true → isVisibleAt vis' x = true →
          isVisibleAt vis x = true ∨ (Flood B ds vis c x ∧ mineAt B x = false)) ∧
        n = numFlips ds vis vis' ∧
        newZeroClosed B ds vis vis' ∧
        (mineAt B c = true ∨ isVisibleAt vis' c = true) := by
  intro fuel
  induction fuel with
  | zero => intro vis c _ _ h; omega
  | succ fuel ih =>
      intro vis c hsh hc hfuel
      obtain ⟨val, hval⟩ := get_value_shaped ds B c hB hc
      obtain ⟨b, hb⟩ := get_value_shaped ds vis c hsh hc
      by_cases hcond : (vTruthy (Vec.leaf b) || isMineVal (Vec.leaf val)) = true
      · have heq : recDig B ds (fuel + 1) c vis = some (vis, 0) := by
          rw [recDig_succ_eq B ds fuel c vis _ _ hval hb, if_pos hcond]
        refine ⟨vis, 0, heq, hsh, fun x _ h => h, fun x _ h => Or.inl h,
          (numFlips_self ds vis).symm, ?_, ?_⟩
        · intro x _ h1 h2; rw [h1] at h2; cases h2
        · have hcond' : b = true ∨ isMineVal (Vec.leaf val) = true := by
            simpa [vTruthy] using hcond
          rcases hcond' with hbt | hmt
          · refine Or.inr (isVisibleAt_iff.mpr ?_)
            rw [hb, hbt]
          · refine Or.inl ?_
            rw [mineAt_eq, hval]
            simpa [isMineOpt] using hmt
      · have hcond' : b = false ∧ isMineVal (Vec.leaf val) = false := by
          constructor
          · cases hbv : b
            · rfl
            · exfalso; apply hcond; simp [vTruthy, hbv]
          · cases hmv : isMineVal (Vec.leaf val)
            · rfl
            · exfalso; apply hcond; simp [hmv]
        obtain ⟨hbf, hmf⟩ := hcond'
        obtain ⟨vis1, hset, hsh1, hchar⟩ := set_value_spec ds vis c true hsh hc hne
        have hvisc : isVisibleAt vis c = false := by
          unfold isVisibleAt
          rw [hb, hbf]
        have hiva := isVisibleAt_after_set hchar
        have hle01 : visLe ds vis vis1 := by
          intro x hx h
          rw [hiva x hx]
          by_cases hxc : x = c
          · simp [hxc]
          · simp [hxc, h]
        have hv1c : isVisibleAt vis1 c = true := by
          rw [hiva c hc]; simp
        have hflip1 : numFlips ds vis vis1 = 1 := by
          refine countP_flip_one (nodup_get_all_coordinates ds)
            ((mem_get_all_coordinates ds c).mpr hc) ?_ hvisc hv1c
          intro x hx hxc
          rw [hiva x ((mem_get_all_coordinates ds x).mp hx), if_neg hxc]
        have hlen : c.length = ds.length := inBds_lengths ds c hc
        have hmineAtc : mineAt B c = false := by
          rw [mineAt_eq, hval]
          simpa [isMineOpt] using hmf
        by_cases hzero : isZeroVal (Vec.leaf val) = true
        · have hzc : zeroAt B c = true := by
            unfold zeroAt
            rw [hval]
            exact hzero
          have hnbB : ∀ nb ∈ get_neighbors ds c, inBds ds nb = true := by
            intro nb hnb
            exact nearBds_imp_inBds ds c nb ((mem_get_neighbors hlen).mp hnb).1
          have hfuel1 : numFalse ds vis1 < fuel := by
            have h1 : numFalse ds vis1 < numFalse ds vis :=
              numFalse_lt_of_flip hc hle01 hvisc hv1c
            omega
          obtain ⟨vis', hrun2, hsh', hle2, hsound2, hcl2, hproc2⟩ :=
            digLoop_spec B ds fuel ih (get_neighbors ds c) vis1 1 hsh1 hnbB hfuel1
          have heq : recDig B ds (fuel + 1) c vis
              = digLoop (recDig B ds fuel) (get_neighbors ds c) vis1 1 := by
            rw [recDig_succ_eq B ds fuel c vis _ _ hval hb, if_neg hcond, hset,
              Option.some_bind, if_pos hzero]
          have hflips : 1 + numFlips ds vis1 vis' = numFlips ds vis vis' := by
            rw [numFlips_chain hle01 hle2, hflip1]
            omega
          refine ⟨vis', numFlips ds vis vis', ?_, hsh',
            fun x hx h => hle2 x hx (hle01 x hx h), ?_, rfl, ?_, ?_⟩
          · rw [heq, hrun2, hflips]
          · intro x hx hvx
            rcases hsound2 x hx hvx with h | ⟨nb, hnb, hf, hm⟩
            · rw [hiva x hx] at h
              by_cases hxc : x = c
              · subst hxc
                exact Or.inr ⟨Flood.refl, hmineAtc⟩
              · rw [if_neg hxc] at h
                exact Or.inl h
            · have hnear := (mem_get_neighbors hlen).mp hnb
              have hstep : Flood B ds vis c nb :=
                Flood.step c nb Flood.refl hzc hvisc hnear.1 hnear.2
              have hfv : Flood B ds vis nb x := Flood_anti hle01 (hnbB nb hnb) hf
              exact Or.inr ⟨Flood_trans hstep hfv, hm⟩
          · intro x hx hnew hold hz nb2 hnb2
            by_cases hxc : x = c
            · subst hxc
              exact hproc2 nb2 hnb2
            · have hmid : isVisibleAt vis1 x = false := by
                rw [hiva x hx, if_neg hxc]; exact hold
              exact hcl2 x hx hnew hmid hz nb2 hnb2
          · exact Or.inr (hle2 c hc hv1c)
        · have heq : recDig B ds (fuel + 1) c vis = some (vis1, 1) := by
            rw [recDig_succ_eq B ds fuel c vis _ _ hval hb, if_neg hcond, hset,
              Option.some_bind, if_neg hzero]
          refine ⟨vis1, 1, heq, hsh1, hle01, ?_, hflip1.symm, ?_, Or.inr hv1c⟩
          · intro x hx h
            rw [hiva x hx] at h
            by_cases hxc : x = c
            · subst hxc
              exact Or.inr ⟨Flood.refl, hmineAtc⟩
            · rw [if_neg hxc] at h
              exact Or.inl h
          · intro x hx hnew hold hz nb2 hnb2
            by_cases hxc : x = c
            · subst hxc
              unfold zeroAt at hz
              rw [hval] at hz
              exact absurd hz hzero
            · rw [hiva x hx, if_neg hxc] at hnew
              rw [hnew] at hold
              cases hold

/-! ### Behaviour of `dig_nd` -/

theorem dig_nd_terminal (g : Game) (c : List Int) (h : g.state ≠ GState.ongoing) :
    dig_nd g c = some (g, 0) := by
  rw [dig_nd, if_pos h]

theorem dig_nd_ongoing_eq (g : Game) (c : List Int) (h : g.state = GState.ongoing) :
    dig_nd g c =
      (get_value g.board c).bind (fun initial_value =>
        if isMineVal initial_value = true then
          (set_value g.visible c true).bind (fun vis =>
            some (Game.mk g.dimensions g.board vis GState.defeat, 1))
        else
          (get_value g.visible c).bind (fun is_vis =>
            if vTruthy is_vis = true then some (check_game_state_nd g, 0)
            else (set_value g.visible c true).bind (fun vis =>
              if isZeroVal initial_value = true then
                (digLoop (recDig g.board g.dimensions (listProd g.dimensions + 1))
                  (get_neighbors g.dimensions c) vis 1).bind (fun res =>
                  some (Game.mk g.dimensions g.board res.1
                    (checkLoop g.board res.1
                      (get_all_coordinates g.dimensions) 0 0 0), res.2))
              else
                some (Game.mk g.dimensions g.board vis
                  (checkLoop g.board vis
                    (get_all_coordinates g.dimensions) 0 0 0), 1)))) := by
  rw [dig_nd, if_neg (by simp [h])]
  rfl

theorem visLe_after_set {ds : List Nat} {vis vis1 : Vec Bool} {c : List Int}
    (hiva : ∀ x, inBds ds x = true →
      isVisibleAt vis1 x = if x = c then true else isVisibleAt vis x) :
    visLe ds vis vis1 := by
  intro x hx h
  rw [hiva x hx]
  by_cases hxc : x = c
  · simp [hxc]
  · simp [hxc, h]

theorem numFlips_after_set {ds : List Nat} {vis vis1 : Vec Bool} {c : List Int}
    (hc : inBds ds c = true)
    (hiva : ∀ x, inBds ds x = true →
      isVisibleAt vis1 x = if x = c then true else isVisibleAt vis x)
    (hvisc : isVisibleAt vis c = false) :
    numFlips ds vis vis1 = 1 := by
  refine countP_flip_one (nodup_get_all_coordinates ds)
    ((mem_get_all_coordinates ds c).mpr hc) ?_ hvisc
    (by rw [hiva c hc]; simp)
  intro x hx hxc
  rw [hiva x ((mem_get_all_coordinates ds x).mp hx), if_neg hxc]

theorem dig_nd_run {g : Game} {c : List Int}
    (hB : shaped g.dimensions g.board = true)
    (hv : shaped g.dimensions g.visible = true)
    (hne : g.dimensions ≠ []) (hc : inBds g.dimensions c = true)
    (hst : g.state = GState.ongoing) :
    ∃ g' n, dig_nd g c = some (g', n) ∧
      g'.dimensions = g.dimensions ∧ g'.board = g.board ∧
      shaped g.dimensions g'.visible = true ∧
      visLe g.dimensions g.visible g'.visible ∧
      (¬(mineAt g.board c = true ∧ isVisibleAt g.visible c = true) →
        n = numFlips g.dimensions g.visible g'.visible) ∧
      (mineAt g.board c = true →
        g'.state = GState.defeat ∧ isVisibleAt g'.visible c = true ∧ n = 1 ∧
        (∀ x, inBds g.dimensions x = true → x ≠ c →
          isVisibleAt g'.visible x = isVisibleAt g.visible x)) ∧
      (mineAt g.board c = false → isVisibleAt g.visible c = true →
        g' = check_game_state_nd g ∧ n = 0) ∧
      (mineAt g.board c = false → isVisibleAt g.visible c = false →
        g'.state = checkLoop g.board g'.visible
          (get_all_coordinates g.dimensions) 0 0 0 ∧
        isVisibleAt g'.visible c = true ∧
        (∀ x, inBds g.dimensions x = true → isVisibleAt g'.visible x = true →
          isVisibleAt g.visible x = true ∨ x = c ∨
            (zeroAt g.board c = true ∧ Flood g.board g.dimensions g.visible c x ∧
              mineAt g.board x = false)) ∧
        newZeroClosed g.board g.dimensions g.visible g'.visible ∧
        (zeroAt g.board c = true →
          ∀ nb ∈ get_neighbors g.dimensions c,
            mineAt g.board nb = true ∨ isVisibleAt g'.visible nb = true)) := by
  rw [dig_nd_ongoing_eq g c hst]
  obtain ⟨val, hval⟩ := get_value_shaped _ _ _ hB hc
  obtain ⟨b, hb⟩ := get_value_shaped _ _ _ hv hc
  have hmAt : mineAt g.board c = isMineVal (Vec.leaf val) := by
    rw [mineAt_eq, hval]; rfl
  have hvAt : isVisibleAt g.visible c = b := by
    unfold isVisibleAt; rw [hb]; cases b <;> rfl
  have hzAt : zeroAt g.board c = isZeroVal (Vec.leaf val) := by
    unfold zeroAt; rw [hval]
  have hlen : c.length = g.dimensions.length := inBds_lengths _ c hc
  rw [hval, Option.some_bind]
  cases hm : isMineVal (Vec.leaf val) with
  | true =>
      rw [if_pos rfl]
      obtain ⟨vis1, hset, hsh1, hchar⟩ := set_value_spec _ g.visible c true hv hc hne
      rw [hset, Option.some_bind]
      have hiva := isVisibleAt_after_set hchar
      have hle01 := visLe_after_set hiva
      refine ⟨_, 1, rfl, rfl, rfl, hsh1, hle01, ?_, ?_, ?_, ?_⟩
      · intro hcon
        have hvisc : isVisibleAt g.visible c = false := by
          cases hbv : isVisibleAt g.visible c
          · rfl
          · exact absurd ⟨by rw [hmAt, hm], hbv⟩ hcon
        rw [numFlips_after_set hc hiva hvisc]
      · refine fun _ => ⟨rfl, by rw [hiva c hc]; simp, rfl, ?_⟩
        intro x hx hxc
        rw [hiva x hx, if_neg hxc]
      · intro hmf; rw [hmAt, hm] at hmf; cases hmf
      · intro hmf; rw [hmAt, hm] at hmf; cases hmf
  | false =>
      rw [if_neg (by simp), hb, Option.some_bind]
      have hmAt' : mineAt g.board c = false := by rw [hmAt, hm]
      by_cases hbv : b = true
      · rw [if_pos (by simp [vTruthy, hbv])]
        refine ⟨check_game_state_nd g, 0, rfl, rfl, rfl, hv,
          fun x _ h => h, ?_, ?_, ?_, ?_⟩
        · intro _
          exact (numFlips_self _ g.visible).symm
        · intro hmt; rw [hmAt'] at hmt; cases hmt
        · intro _ _; exact ⟨rfl, rfl⟩
        · intro _ hvf
          rw [hvAt] at hvf; rw [hbv] at hvf; cases hvf
      · have hbf : b = false := by revert hbv; cases b <;> simp
        rw [if_neg (by simp [vTruthy, hbf])]
        obtain ⟨vis1, hset, hsh1, hchar⟩ :=
          set_value_spec _ g.visible c true hv hc hne
        rw [hset, Option.some_bind]
        have hiva := isVisibleAt_after_set hchar
        have hle01 := visLe_after_set hiva
        have hvisc : isVisibleAt g.visible c = false := by rw [hvAt, hbf]
        have hv1c : isVisibleAt vis1 c = true := by rw [hiva c hc]; simp
        have hflip1 := numFlips_after_set hc hiva hvisc
        cases hz : isZeroVal (Vec.leaf val) with
        | true =>
            have hzc : zeroAt g.board c = true := by rw [hzAt, hz]
            have hnbB : ∀ nb ∈ get_neighbors g.dimensions c,
                inBds g.dimensions nb = true := by
              intro nb hnb
              exact nearBds_imp_inBds _ c nb ((mem_get_neighbors hlen).mp hnb).1
            have hfuel1 : numFalse g.dimensions vis1
                < listProd g.dimensions + 1 := by
              have h1 : numFalse g.dimensions vis1 < numFalse g.dimensions g.visible :=
                numFalse_lt_of_flip hc hle01 hvisc hv1c
              have h2 := numFalse_le_listProd g.dimensions g.visible
              omega
            obtain ⟨vis', hrun2, hsh', hle2, hsound2, hcl2, hproc2⟩ :=
              digLoop_spec g.board g.dimensions (listProd g.dimensions + 1)
                (recDig_spec g.board g.dimensions hB hne (listProd g.dimensions + 1))
                (get_neighbors g.dimensions c) vis1 1 hsh1 hnbB hfuel1
            rw [if_pos rfl, hrun2, Option.some_bind]
            refine ⟨_, 1 + numFlips g.dimensions vis1 vis', rfl, rfl, rfl, hsh',
              fun x hx h => hle2 x hx (hle01 x hx h), ?_, ?_, ?_, ?_⟩
            · intro _
              rw [numFlips_chain hle01 hle2, hflip1]
              omega
            · intro hmt; rw [hmAt'] at hmt; cases hmt
            · intro _ hvt; rw [hvt] at hvisc; cases hvisc
            · intro _ _
              refine ⟨rfl, hle2 c hc hv1c, ?_, ?_, fun _ => hproc2⟩
              · intro x hx hvx
                rcases hsound2 x hx hvx with h | ⟨nb, hnb, hf, hm2⟩
                · rw [hiva x hx] at h
                  by_cases hxc : x = c
                  · exact Or.inr (Or.inl hxc)
                  · rw [if_neg hxc] at h
                    exact Or.inl h
                · have hnear := (mem_get_neighbors hlen).mp hnb
                  have hstep : Flood g.board g.dimensions g.visible c nb :=
                    Flood.step c nb Flood.refl hzc hvisc hnear.1 hnear.2
                  have hfv : Flood g.board g.dimensions g.visible nb x :=
                    Flood_anti hle01 (hnbB nb hnb) hf
                  exact Or.inr (Or.inr ⟨hzc, Flood_trans hstep hfv, hm2⟩)
              · intro x hx hnew hold hzx nb2 hnb2
                by_cases hxc : x = c
                · subst hxc
                  exact hproc2 nb2 hnb2
                · have hmid : isVisibleAt vis1 x = false := by
                    rw [hiva x hx, if_neg hxc]; exact hold
                  exact hcl2 x hx hnew hmid hzx nb2 hnb2
        | false =>
            rw [if_neg (by simp)]
            refine ⟨_, 1, rfl, rfl, rfl, hsh1, hle01, ?_, ?_, ?_, ?_⟩
            · intro _; rw [hflip1]
            · intro hmt; rw [hmAt'] at hmt; cases hmt
            · intro _ hvt; rw [hvt] at hvisc; cases hvisc
            · intro _ _
              refine ⟨rfl, hv1c, ?_, ?_, ?_⟩
              · intro x hx hvx
                rw [hiva x hx] at hvx
                by_cases hxc : x = c
                · exact Or.inr (Or.inl hxc)
                · rw [if_neg hxc] at hvx
                  exact Or.inl hvx
              · intro x hx hnew hold hzx nb2 hnb2
                by_cases hxc : x = c
                · subst hxc
                  rw [hzAt, hz] at hzx; cases hzx
                · rw [hiva x hx, if_neg hxc] at hnew
                  rw [hnew] at hold; cases hold
              · intro hzc
                rw [hzAt, hz] at hzc; cases hzc

theorem mineAt_false_of_zeroAt {B : Vec Cell} {c : List Int}
    (h : zeroAt B c = true) : mineAt B c = false := by
  unfold zeroAt at h
  cases hg : get_value B c with
  | none => rw [hg] at h; cases h
  | some v =>
      rw [hg] at h
      rw [mineAt_eq, hg]
      cases v with
      | leaf cell =>
          cases cell with
          | mine => cases h
          | num n => rfl
      | node l => cases h

theorem state_victory_iff_of_checkLoop {g' : Game}
    (hB : shaped g'.dimensions g'.board = true)
    (hv : shaped g'.dimensions g'.visible = true)
    (hs : g'.state = checkLoop g'.board g'.visible
      (get_all_coordinates g'.dimensions) 0 0 0) :
    (g'.state = GState.victory ↔
      (∀ x, inBds g'.dimensions x = true → mineAt g'.board x = false →
        isVisibleAt g'.visible x = true) ∧
      (∀ x, inBds g'.dimensions x = true → mineAt g'.board x = true →
        isVisibleAt g'.visible x = false)) := by
  have h2 : g'.state = (check_game_state_nd g').state := hs
  rw [h2]
  exact check_state_victory_iff hB hv

/-! ### Claim theorems -/

/-- C5: for every game whose state is `defeat` or `victory` and every
coordinate, `dig_nd` returns 0 and leaves the game (state, visibility,
board, dimensions) unchanged. -/
theorem C5_terminal_dig_noop (g : Game) (c : List Int)
    (h : g.state = GState.defeat ∨ g.state = GState.victory) :
    dig_nd g c = some (g, 0) := by
  rcases h with h | h <;> exact dig_nd_terminal g c (by rw [h]; decide)

theorem C5_witness :
    dig_nd (Game.mk [1] (Vec.node [Vec.leaf (Cell.num 0)])
        (Vec.node [Vec.leaf false]) GState.defeat) [0]
      = some (Game.mk [1] (Vec.node [Vec.leaf (Cell.num 0)])
        (Vec.node [Vec.leaf false]) GState.defeat, 0) :=
  C5_terminal_dig_noop _ [0] (Or.inl rfl)

/-- C9: `check_game_state_nd` mutates only the state field (board,
visibility and dimensions are untouched) and is idempotent. -/
theorem C9_check_frame_idempotent (g : Game) :
    (check_game_state_nd g).board = g.board ∧
    (check_game_state_nd g).visible = g.visible ∧
    (check_game_state_nd g).dimensions = g.dimensions ∧
    check_game_state_nd (check_game_state_nd g) = check_game_state_nd g :=
  ⟨rfl, rfl, rfl, rfl⟩

/-- C8: for an in-bounds coordinate, `get_neighbors` returns exactly the
coordinates obtained by adding per-axis deltas in `{-1,0,+1}`, excluding the
coordinate itself and out-of-bounds results (`nearBds` states precisely
this); the result has no duplicates and at most `3^R - 1` elements. -/
theorem C8_neighbors_characterization (ds : List Nat) (c : List Int)
    (hc : inBds ds c = true) :
    (∀ n, n ∈ get_neighbors ds c ↔ (nearBds ds c n = true ∧ n ≠ c)) ∧
    (get_neighbors ds c).Nodup ∧
    (get_neighbors ds c).length ≤ 3 ^ ds.length - 1 :=
  ⟨fun n => mem_get_neighbors (inBds_lengths ds c hc),
   nodup_get_neighbors ds c, length_get_neighbors_le hc⟩

theorem C8_witness :
    (∀ n, n ∈ get_neighbors [2, 3] [1, 0] ↔
      (nearBds [2, 3] [1, 0] n = true ∧ n ≠ [1, 0])) ∧
    (get_neighbors [2, 3] [1, 0]).Nodup ∧
    (get_neighbors [2, 3] [1, 0]).length ≤ 3 ^ ([2, 3] : List Nat).length - 1 :=
  C8_neighbors_characterization [2, 3] [1, 0] (by decide)

/-- C7: no engine operation ever turns a visibility flag from true to
false: `dig_nd` only grows the visible set (on well-formed games at
in-bounds coordinates), and `check_game_state_nd` leaves the visibility
array untouched.  `new_game_nd` and `render_nd` are pure constructions in
this embedding (the Python originals never write a visibility entry). -/
theorem C7_visibility_monotone :
    (∀ (g g' : Game) (c : List Int) (n : Nat),
      shaped g.dimensions g.board = true → shaped g.dimensions g.visible = true →
      g.dimensions ≠ [] → inBds g.dimensions c = true →
      dig_nd g c = some (g', n) →
      ∀ x, inBds g.dimensions x = true →
        isVisibleAt g.visible x = true → isVisibleAt g'.visible x = true) ∧
    (∀ g : Game, (check_game_state_nd g).visible = g.visible) := by
  refine ⟨?_, fun g => rfl⟩
  intro g g' c n hB hv hne hc hdig x hx hvx
  by_cases hst : g.state = GState.ongoing
  · obtain ⟨g'', n'', heq, _, _, _, hle, _, _, _, _⟩ := dig_nd_run hB hv hne hc hst
    rw [heq] at hdig
    have hinj := Option.some.inj hdig
    have hg : g'' = g' := congrArg Prod.fst hinj
    rw [← hg]
    exact hle x hx hvx
  · rw [dig_nd_terminal g c hst] at hdig
    have hinj := Option.some.inj hdig
    have hg : g = g' := congrArg Prod.fst hinj
    rw [← hg]
    exact hvx

/-- C3 (amended): for every well-formed game and in-bounds coordinate,
unless the dug cell is a mine that is already visible, the integer returned
by `dig_nd` equals the number of cells whose visibility flag transitioned
false→true during the call.  (Digging an already-visible mine returns 1
although nothing transitions; see the counterexample.) -/
theorem C3_dig_count (g : Game) (c : List Int)
    (hB : shaped g.dimensions g.board = true)
    (hv : shaped g.dimensions g.visible = true)
    (hne : g.dimensions ≠ []) (hc : inBds g.dimensions c = true)
    (hnot : ¬(mineAt g.board c = true ∧ isVisibleAt g.visible c = true)) :
    ∀ g' n, dig_nd g c = some (g', n) →
      n = numFlips g.dimensions g.visible g'.visible := by
  intro g' n hdig
  by_cases hst : g.state = GState.ongoing
  · obtain ⟨g'', n'', heq, _, _, _, _, hcount, _, _, _⟩ :=
      dig_nd_run hB hv hne hc hst
    rw [heq] at hdig
    have hinj := Option.some.inj hdig
    have hg : g'' = g' := congrArg Prod.fst hinj
    have hn : n'' = n := congrArg Prod.snd hinj
    rw [← hg, ← hn]
    exact hcount hnot
  · rw [dig_nd_terminal g c hst] at hdig
    have hinj := Option.some.inj hdig
    have hg : g = g' := congrArg Prod.fst hinj
    have hn : (0 : Nat) = n := congrArg Prod.snd hinj
    rw [← hg, ← hn]
    exact (numFlips_self _ g.visible).symm

/-- C3 counterexample: digging an already-visible mine on an ongoing game
returns 1 while zero visibility flags transition false→true, contradicting
the claim that the return value always equals the number of transitions. -/
theorem C3_counterexample :
    dig_nd (Game.mk [2] (Vec.node [Vec.leaf Cell.mine, Vec.leaf (Cell.num 1)])
        (Vec.node [Vec.leaf true, Vec.leaf false]) GState.ongoing) [0]
      = some (Game.mk [2] (Vec.node [Vec.leaf Cell.mine, Vec.leaf (Cell.num 1)])
        (Vec.node [Vec.leaf true, Vec.leaf false]) GState.defeat, 1) ∧
    numFlips [2] (Vec.node [Vec.leaf true, Vec.leaf false])
      (Vec.node [Vec.leaf true, Vec.leaf false]) = 0 := by
  constructor
  · rfl
  · decide

theorem C3_witness :
    (3 : Nat) = numFlips [4]
      (Vec.node [Vec.leaf false, Vec.leaf false, Vec.leaf false, Vec.leaf false])
      (Vec.node [Vec.leaf true, Vec.leaf true, Vec.leaf true, Vec.leaf false]) :=
  C3_dig_count
    (Game.mk [4] (Vec.node [Vec.leaf (Cell.num 0), Vec.leaf (Cell.num 0),
        Vec.leaf (Cell.num 1), Vec.leaf Cell.mine])
      (Vec.node [Vec.leaf false, Vec.leaf false, Vec.leaf false, Vec.leaf false])
      GState.ongoing) [0] (by decide) (by decide) (by decide) (by decide)
    (by decide)
    (Game.mk [4] (Vec.node [Vec.leaf (Cell.num 0), Vec.leaf (Cell.num 0),
        Vec.leaf (Cell.num 1), Vec.leaf Cell.mine])
      (Vec.node [Vec.leaf true, Vec.leaf true, Vec.leaf true, Vec.leaf false])
      GState.victory) 3 (by rfl)

/-- C4 (amended): after a call to `dig_nd` at an in-bounds coordinate of a
well-formed game in state `ongoing`, the state is `victory` iff every
non-mine cell is visible AND no mine cell is visible.  (Without the ongoing
hypothesis the claim fails on games crafted in a terminal state, and without
the no-visible-mine condition it fails when a mine is revealed while all
safe cells are visible; see the counterexample.) -/
theorem C4_victory_iff (g : Game) (c : List Int)
    (hB : shaped g.dimensions g.board = true)
    (hv : shaped g.dimensions g.visible = true)
    (hne : g.dimensions ≠ []) (hc : inBds g.dimensions c = true)
    (hst : g.state = GState.ongoing) :
    ∀ g' n, dig_nd g c = some (g', n) →
      (g'.state = GState.victory ↔
        (∀ x, inBds g.dimensions x = true → mineAt g.board x = false →
          isVisibleAt g'.visible x = true) ∧
        (∀ x, inBds g.dimensions x = true → mineAt g.board x = true →
          isVisibleAt g'.visible x = false)) := by
  intro g' n hdig
  obtain ⟨g'', n'', heq, hdims, hbd, hshv, hle, hcount, hmine, hvisb, hhid⟩ :=
    dig_nd_run hB hv hne hc hst
  rw [heq] at hdig
  have hinj := Option.some.inj hdig
  have hg : g'' = g' := congrArg Prod.fst hinj
  subst hg
  cases hm : mineAt g.board c with
  | true =>
      obtain ⟨hdef, hvc, -, -⟩ := hmine hm
      rw [hdef]
      constructor
      · intro h; cases h
      · rintro ⟨-, h2⟩
        have := h2 c hc hm
        rw [hvc] at this
        cases this
  | false =>
      cases hvis : isVisibleAt g.visible c with
      | true =>
          obtain ⟨hgeq, -⟩ := hvisb hm hvis
          subst hgeq
          exact check_state_victory_iff hB hv
      | false =>
          obtain ⟨hstate, -, -, -, -⟩ := hhid hm hvis
          have hiff := @state_victory_iff_of_checkLoop g''
            (by rw [hdims, hbd]; exact hB)
            (by rw [hdims]; exact hshv)
            (by rw [hdims, hbd]; exact hstate)
          rw [hdims, hbd] at hiff
          exact hiff

/-- C4 counterexample, exhibiting both failure modes of the claim as
stated.  First: on a game crafted in state `victory` with both safe cells
hidden, `dig_nd` is a no-op that leaves the state `victory` although not
every non-mine cell is visible — so "after any call" fails without
restricting to ongoing games.  Second: on a well-formed ONGOING game whose
cells are `[num 1, mine]` with both flags set, digging the visible safe
cell `[0]` ends in state `defeat`, although every non-mine cell (`[0]`, the
only one, as the enumeration conjunct shows) is visible — so even for
ongoing games "victory iff every non-mine cell visible" fails: the code
additionally requires that no mine is visible. -/
theorem C4_counterexample :
    (dig_nd (Game.mk [2] (Vec.node [Vec.leaf (Cell.num 0), Vec.leaf (Cell.num 0)])
        (Vec.node [Vec.leaf false, Vec.leaf false]) GState.victory) [0]
      = some (Game.mk [2] (Vec.node [Vec.leaf (Cell.num 0), Vec.leaf (Cell.num 0)])
        (Vec.node [Vec.leaf false, Vec.leaf false]) GState.victory, 0) ∧
    mineAt (Vec.node [Vec.leaf (Cell.num 0), Vec.leaf (Cell.num 0)]) [0] = false ∧
    isVisibleAt (Vec.node [Vec.leaf false, Vec.leaf false]) [0] = false) ∧
    (dig_nd (Game.mk [2] (Vec.node [Vec.leaf (Cell.num 1), Vec.leaf Cell.mine])
        (Vec.node [Vec.leaf true, Vec.leaf true]) GState.ongoing) [0]
      = some (Game.mk [2] (Vec.node [Vec.leaf (Cell.num 1), Vec.leaf Cell.mine])
        (Vec.node [Vec.leaf true, Vec.leaf true]) GState.defeat, 0) ∧
    get_all_coordinates [2] = [[0], [1]] ∧
    mineAt (Vec.node [Vec.leaf (Cell.num 1), Vec.leaf Cell.mine]) [0] = false ∧
    isVisibleAt (Vec.node [Vec.leaf true, Vec.leaf true]) [0] = true ∧
    mineAt (Vec.node [Vec.leaf (Cell.num 1), Vec.leaf Cell.mine]) [1] = true) := by
  refine ⟨⟨rfl, by decide, by decide⟩, rfl, by decide, by decide, by decide, by decide⟩

theorem C4_witness :
    (Game.mk [2] (Vec.node [Vec.leaf (Cell.num 1), Vec.leaf (Cell.num 1)])
        (Vec.node [Vec.leaf true, Vec.leaf true]) GState.victory).state
        = GState.victory ↔
      (∀ x, inBds [2] x = true →
        mineAt (Vec.node [Vec.leaf (Cell.num 1), Vec.leaf (Cell.num 1)]) x = false →
        isVisibleAt (Game.mk [2]
          (Vec.node [Vec.leaf (Cell.num 1), Vec.leaf (Cell.num 1)])
          (Vec.node [Vec.leaf true, Vec.leaf true]) GState.victory).visible x = true) ∧
      (∀ x, inBds [2] x = true →
        mineAt (Vec.node [Vec.leaf (Cell.num 1), Vec.leaf (Cell.num 1)]) x = true →
        isVisibleAt (Game.mk [2]
          (Vec.node [Vec.leaf (Cell.num 1), Vec.leaf (Cell.num 1)])
          (Vec.node [Vec.leaf true, Vec.leaf true]) GState.victory).visible x = false) :=
  C4_victory_iff
    (Game.mk [2] (Vec.node [Vec.leaf (Cell.num 1), Vec.leaf (Cell.num 1)])
      (Vec.node [Vec.leaf true, Vec.leaf false]) GState.ongoing) [1]
    (by decide) (by decide) (by decide) (by decide) (by rfl)
    (Game.mk [2] (Vec.node [Vec.leaf (Cell.num 1), Vec.leaf (Cell.num 1)])
      (Vec.node [Vec.leaf true, Vec.leaf true]) GState.victory) 1 (by rfl)

/-- C6 (amended): digging an already-visible non-mine in-bounds cell of a
well-formed game returns 0 and leaves the game entirely unchanged, provided
the game is terminal or its `ongoing` state agrees with what
`check_game_state_nd` recomputes.  (On a stale ongoing game the internal
recheck can change the state, and an already-visible MINE returns 1 and
sets defeat; see the counterexample.) -/
theorem C6_visible_redig_noop (g : Game) (c : List Int)
    (hB : shaped g.dimensions g.board = true)
    (hv : shaped g.dimensions g.visible = true)
    (hne : g.dimensions ≠ []) (hc : inBds g.dimensions c = true)
    (hvis : isVisibleAt g.visible c = true)
    (hm : mineAt g.board c = false)
    (hcons : g.state ≠ GState.ongoing ∨
      (check_game_state_nd g).state = g.state) :
    dig_nd g c = some (g, 0) := by
  by_cases hst : g.state = GState.ongoing
  · rcases hcons with h | h
    · exact absurd hst h
    · obtain ⟨g'', n'', heq, _, _, _, _, _, _, hvisb, _⟩ :=
        dig_nd_run hB hv hne hc hst
      obtain ⟨hgeq, hn0⟩ := hvisb hm hvis
      have hcg : check_game_state_nd g = g := by
        obtain ⟨d, b, v, st⟩ := g
        have h' : checkLoop b v (get_all_coordinates d) 0 0 0 = st := h
        rw [show check_game_state_nd (Game.mk d b v st)
          = Game.mk d b v (checkLoop b v (get_all_coordinates d) 0 0 0) from rfl, h']
      rw [heq, hgeq, hn0, hcg]
  · exact dig_nd_terminal g c hst

/-- C6 counterexample: two ongoing games refuting the claim as stated.
Digging the already-visible cell `[0]` (a mine) returns 1 and sets defeat,
not 0 with the game unchanged; digging the already-visible safe cell `[1]`
on a game with a visible mine returns 0 but flips the state to defeat (the
internal recheck), so the game is not left unchanged. -/
theorem C6_counterexample :
    dig_nd (Game.mk [2] (Vec.node [Vec.leaf Cell.mine, Vec.leaf (Cell.num 1)])
        (Vec.node [Vec.leaf true, Vec.leaf false]) GState.ongoing) [0]
      = some (Game.mk [2] (Vec.node [Vec.leaf Cell.mine, Vec.leaf (Cell.num 1)])
        (Vec.node [Vec.leaf true, Vec.leaf false]) GState.defeat, 1) ∧
    dig_nd (Game.mk [2] (Vec.node [Vec.leaf Cell.mine, Vec.leaf (Cell.num 1)])
        (Vec.node [Vec.leaf true, Vec.leaf true]) GState.ongoing) [1]
      = some (Game.mk [2] (Vec.node [Vec.leaf Cell.mine, Vec.leaf (Cell.num 1)])
        (Vec.node [Vec.leaf true, Vec.leaf true]) GState.defeat, 0) :=
  ⟨rfl, rfl⟩

theorem C6_witness :
    dig_nd (Game.mk [3] (Vec.node [Vec.leaf Cell.mine, Vec.leaf (Cell.num 1),
        Vec.leaf (Cell.num 1)])
      (Vec.node [Vec.leaf false, Vec.leaf true, Vec.leaf false])
      GState.ongoing) [1]
      = some (Game.mk [3] (Vec.node [Vec.leaf Cell.mine, Vec.leaf (Cell.num 1),
        Vec.leaf (Cell.num 1)])
      (Vec.node [Vec.leaf false, Vec.leaf true, Vec.leaf false])
      GState.ongoing, 0) :=
  C6_visible_redig_noop _ [1] (by decide) (by decide) (by decide) (by decide)
    (by decide) (by decide) (Or.inr (by rfl))

/-- C2 (amended): digging a hidden zero-valued in-bounds cell of a
well-formed ongoing game makes visible exactly the previously-visible cells
plus the Chebyshev-connected component of zero-valued *not-yet-visible*
cells reachable from the dug cell together with their non-mine neighbors
(the `Flood` closure), and no mine cell ever has its flag changed.  (The
claim as stated lets the component pass through already-visible zero cells;
the flood fill stops at those, see the counterexample.) -/
theorem C2_flood_fill_closure (g : Game) (c : List Int)
    (hB : shaped g.dimensions g.board = true)
    (hv : shaped g.dimensions g.visible = true)
    (hne : g.dimensions ≠ []) (hc : inBds g.dimensions c = true)
    (hst : g.state = GState.ongoing)
    (hzero : zeroAt g.board c = true)
    (hhidden : isVisibleAt g.visible c = false) :
    ∀ g' n, dig_nd g c = some (g', n) →
      (∀ x, inBds g.dimensions x = true →
        (isVisibleAt g'.visible x = true ↔
          (isVisibleAt g.visible x = true ∨
            (Flood g.board g.dimensions g.visible c x ∧
              mineAt g.board x = false)))) ∧
      (∀ x, inBds g.dimensions x = true → mineAt g.board x = true →
        isVisibleAt g'.visible x = isVisibleAt g.visible x) := by
  intro g' n hdig
  obtain ⟨g'', n'', heq, hdims, hbd, hshv, hle, _, _, _, hhid⟩ :=
    dig_nd_run hB hv hne hc hst
  rw [heq] at hdig
  have hinj := Option.some.inj hdig
  have hg : g'' = g' := congrArg Prod.fst hinj
  subst hg
  have hm := mineAt_false_of_zeroAt hzero
  obtain ⟨-, hvc, hsound, hclosed, -⟩ := hhid hm hhidden
  have comp : ∀ x, Flood g.board g.dimensions g.visible c x →
      mineAt g.board x = false → isVisibleAt g''.visible x = true := by
    intro x hf
    induction hf with
    | refl => intro _; exact hvc
    | step y z hfy hzy hvy hn hne2 ihy =>
        intro hmz
        have hyB : inBds g.dimensions y = true := Flood_inBds hfy hc
        have hyvis : isVisibleAt g''.visible y = true :=
          ihy (mineAt_false_of_zeroAt hzy)
        have hylen : y.length = g.dimensions.length := inBds_lengths _ y hyB
        have hzin : z ∈ get_neighbors g.dimensions y :=
          (mem_get_neighbors hylen).mpr ⟨hn, hne2⟩
        rcases hclosed y hyB hyvis hvy hzy z hzin with hmm | hvv
        · rw [hmz] at hmm; cases hmm
        · exact hvv
  constructor
  · intro x hx
    constructor
    · intro hvx
      rcases hsound x hx hvx with h | h | ⟨-, hf, hmm⟩
      · exact Or.inl h
      · subst h; exact Or.inr ⟨Flood.refl, hm⟩
      · exact Or.inr ⟨hf, hmm⟩
    · intro h
      rcases h with h | ⟨hf, hmm⟩
      · exact hle x hx h
      · exact comp x hf hmm
  · intro x hx hmx
    cases hvx : isVisibleAt g.visible x with
    | true => rw [hle x hx hvx]
    | false =>
        cases hvx' : isVisibleAt g''.visible x with
        | false => rfl
        | true =>
            rcases hsound x hx hvx' with h | h | ⟨-, -, hmm⟩
            · rw [h] at hvx; cases hvx
            · subst h; rw [hmx] at hm; cases hm
            · rw [hmx] at hmm; cases hmm

/-- C2 counterexample: a 1×3 all-zero board with the middle cell already
visible.  Digging cell `[0]` reveals only `[0]` — the flood fill stops at
the already-visible zero cell `[1]` — although `[2]` is zero-valued and
Chebyshev-connected to `[0]` through zero-valued cells, so the claimed
"exactly the connected component of zero cells reachable from c" is not
made visible. -/
theorem C2_counterexample :
    dig_nd (Game.mk [3]
        (Vec.node [Vec.leaf (Cell.num 0), Vec.leaf (Cell.num 0),
          Vec.leaf (Cell.num 0)])
        (Vec.node [Vec.leaf false, Vec.leaf true, Vec.leaf false])
        GState.ongoing) [0]
      = some (Game.mk [3]
        (Vec.node [Vec.leaf (Cell.num 0), Vec.leaf (Cell.num 0),
          Vec.leaf (Cell.num 0)])
        (Vec.node [Vec.leaf true, Vec.leaf true, Vec.leaf false])
        GState.ongoing, 1) ∧
    zeroAt (Vec.node [Vec.leaf (Cell.num 0), Vec.leaf (Cell.num 0),
      Vec.leaf (Cell.num 0)]) [0] = true ∧
    zeroAt (Vec.node [Vec.leaf (Cell.num 0), Vec.leaf (Cell.num 0),
      Vec.leaf (Cell.num 0)]) [1] = true ∧
    zeroAt (Vec.node [Vec.leaf (Cell.num 0), Vec.leaf (Cell.num 0),
      Vec.leaf (Cell.num 0)]) [2] = true ∧
    nearBds [3] [0] [1] = true ∧ nearBds [3] [1] [2] = true ∧
    isVisibleAt (Vec.node [Vec.leaf true, Vec.leaf true, Vec.leaf false])
      [2] = false := by
  refine ⟨rfl, by decide, by decide, by decide, by decide, by decide, by decide⟩

theorem C2_witness :
    (∀ x, inBds [4] x = true →
      (isVisibleAt (Vec.node [Vec.leaf true, Vec.leaf true, Vec.leaf true,
          Vec.leaf false]) x = true ↔
        (isVisibleAt (Vec.node [Vec.leaf false, Vec.leaf false, Vec.leaf false,
            Vec.leaf false]) x = true ∨
          (Flood (Vec.node [Vec.leaf (Cell.num 0), Vec.leaf (Cell.num 0),
              Vec.leaf (Cell.num 1), Vec.leaf Cell.mine]) [4]
            (Vec.node [Vec.leaf false, Vec.leaf false, Vec.leaf false,
              Vec.leaf false]) [0] x ∧
            mineAt (Vec.node [Vec.leaf (Cell.num 0), Vec.leaf (Cell.num 0),
              Vec.leaf (Cell.num 1), Vec.leaf Cell.mine]) x = false)))) ∧
    (∀ x, inBds [4] x = true →
      mineAt (Vec.node [Vec.leaf (Cell.num 0), Vec.leaf (Cell.num 0),
        Vec.leaf (Cell.num 1), Vec.leaf Cell.mine]) x = true →
      isVisibleAt (Vec.node [Vec.leaf true, Vec.leaf true, Vec.leaf true,
          Vec.leaf false]) x
        = isVisibleAt (Vec.node [Vec.leaf false, Vec.leaf false, Vec.leaf false,
          Vec.leaf false]) x) :=
  C2_flood_fill_closure
    (Game.mk [4] (Vec.node [Vec.leaf (Cell.num 0), Vec.leaf (Cell.num 0),
        Vec.leaf (Cell.num 1), Vec.leaf Cell.mine])
      (Vec.node [Vec.leaf false, Vec.leaf false, Vec.leaf false, Vec.leaf false])
      GState.ongoing) [0]
    (by decide) (by decide) (by decide) (by decide) (by rfl) (by decide) (by decide)
    (Game.mk [4] (Vec.node [Vec.leaf (Cell.num 0), Vec.leaf (Cell.num 0),
        Vec.leaf (Cell.num 1), Vec.leaf Cell.mine])
      (Vec.node [Vec.leaf true, Vec.leaf true, Vec.leaf true, Vec.leaf false])
      GState.victory) 3 (by rfl)

theorem C7_witness :
    ∀ x, inBds [2] x = true →
      isVisibleAt (Vec.node [Vec.leaf true, Vec.leaf false]) x = true →
      isVisibleAt (Game.mk [2]
        (Vec.node [Vec.leaf (Cell.num 1), Vec.leaf (Cell.num 1)])
        (Vec.node [Vec.leaf true, Vec.leaf true]) GState.victory).visible x = true :=
  C7_visibility_monotone.1
    (Game.mk [2] (Vec.node [Vec.leaf (Cell.num 1), Vec.leaf (Cell.num 1)])
      (Vec.node [Vec.leaf true, Vec.leaf false]) GState.ongoing)
    (Game.mk [2] (Vec.node [Vec.leaf (Cell.num 1), Vec.leaf (Cell.num 1)])
      (Vec.node [Vec.leaf true, Vec.leaf true]) GState.victory)
    [1] 1 (by decide) (by decide) (by decide) (by decide) (by rfl)

/-! ### Board generation -/

theorem placeMines_spec (ds : List Nat) (hne : ds ≠ []) :
    ∀ (M : List (List Int)) (b : Vec Cell), shaped ds b = true →
      (∀ m ∈ M, inBds ds m = true) →
      ∃ b', placeMines b M = some b' ∧ shaped ds b' = true ∧
        ∀ x, inBds ds x = true →
          get_value b' x =
            if x ∈ M then some (Vec.leaf Cell.mine) else get_value b x := by
  intro M
  induction M with
  | nil =>
      intro b hb _
      exact ⟨b, rfl, hb, fun x _ => by simp⟩
  | cons m M ih =>
      intro b hb hM
      obtain ⟨b1, hset, hsh1, hchar⟩ :=
        set_value_spec ds b m Cell.mine hb (hM m (List.mem_cons_self m M)) hne
      obtain ⟨b', hrest, hsh', hchar'⟩ :=
        ih b1 hsh1 (fun x hx => hM x (List.mem_cons_of_mem _ hx))
      refine ⟨b', ?_, hsh', ?_⟩
      · rw [show placeMines b (m :: M)
            = (set_value b m Cell.mine).bind (fun b1 => placeMines b1 M) from rfl,
          hset, Option.some_bind]
        exact hrest
      · intro x hx
        rw [hchar' x hx]
        by_cases hxM : x ∈ M
        · simp [hxM, List.mem_cons]
        · rw [if_neg hxM, hchar x hx]
          by_cases hxm : x = m
          · simp [hxm, List.mem_cons]
          · simp [List.mem_cons, hxm, hxM]

theorem countP_neighbors_eq_mineCount (ds : List Nat) (M : List (List Int))
    (c : List Int) (hc : inBds ds c = true) :
    List.countP (fun nb => decide (nb ∈ M)) (get_neighbors ds c)
      = mineCount ds M c := by
  have hlen : c.length = ds.length := inBds_lengths ds c hc
  rw [List.countP_eq_length_filter, mineCount]
  refine List.Perm.length_eq (List.perm_ext_iff_of_nodup ?_ ?_ |>.mpr ?_)
  · exact (nodup_get_neighbors ds c).filter _
  · exact (nodup_get_all_coordinates ds).filter _
  · intro n
    rw [List.mem_filter, List.mem_filter, mem_get_neighbors hlen,
      mem_get_all_coordinates]
    constructor
    · rintro ⟨⟨hnear, hne⟩, hmem⟩
      refine ⟨nearBds_imp_inBds ds c n hnear, ?_⟩
      simp [hnear, hne, (by simpa using hmem : n ∈ M)]
    · rintro ⟨hin, h⟩
      simp only [Bool.and_eq_true, decide_eq_true_eq] at h
      exact ⟨⟨h.1.1, h.1.2⟩, by simpa using h.2⟩

theorem fillCounts_spec (ds : List Nat) (hne : ds ≠ []) (M : List (List Int)) :
    ∀ (L : List (List Int)) (b : Vec Cell), shaped ds b = true →
      (∀ x ∈ L, inBds ds x = true) →
      (∀ x, inBds ds x = true → ∃ cx, get_value b x = some (Vec.leaf cx) ∧
        ((cx = Cell.mine) ↔ x ∈ M)) →
      ∃ b', fillCounts ds b L = some b' ∧ shaped ds b' = true ∧
        (∀ x, inBds ds x = true → x ∈ M → get_value b' x = get_value b x) ∧
        (∀ x, inBds ds x = true → x ∉ M → x ∈ L →
          get_value b' x = some (Vec.leaf (Cell.num (mineCount ds M x)))) ∧
        (∀ x, inBds ds x = true → x ∉ M → x ∉ L →
          get_value b' x = get_value b x) := by
  intro L
  induction L with
  | nil =>
      intro b hb _ _
      refine ⟨b, rfl, hb, fun x _ _ => rfl, fun x _ _ hx => absurd hx
        (List.not_mem_nil x), fun x _ _ _ => rfl⟩
  | cons c L ih =>
      intro b hb hL hinv
      have hc : inBds ds c = true := hL c (List.mem_cons_self c L)
      obtain ⟨cc, hgc, hiffc⟩ := hinv c hc
      cases cc with
      | mine =>
          have hcM : c ∈ M := hiffc.mp rfl
          obtain ⟨b', hrest, hsh', h1, h2, h3⟩ :=
            ih b hb (fun x hx => hL x (List.mem_cons_of_mem _ hx)) hinv
          refine ⟨b', ?_, hsh', h1, ?_, ?_⟩
          · rw [show fillCounts ds b (c :: L)
                = (get_value b c).bind (fun v =>
                    if isMineVal v = true then fillCounts ds b L
                    else (set_value b c (Cell.num (List.countP
                      (fun neighbor => isMineOpt (get_value b neighbor))
                      (get_neighbors ds c)))).bind
                      (fun b1 => fillCounts ds b1 L)) from rfl,
              hgc, Option.some_bind,
              if_pos (show isMineVal (Vec.leaf Cell.mine) = true from rfl)]
            exact hrest
          · intro x hx hxM hxL
            rcases List.mem_cons.mp hxL with rfl | hxL'
            · exact absurd hcM hxM
            · exact h2 x hx hxM hxL'
          · intro x hx hxM hxL
            exact h3 x hx hxM (fun h => hxL (List.mem_cons_of_mem _ h))
      | num k =>
          have hcM : c ∉ M := fun h => by
            have := hiffc.mpr h
            cases this
          have hcnt : List.countP
              (fun neighbor => isMineOpt (get_value b neighbor))
              (get_neighbors ds c) = mineCount ds M c := by
            rw [← countP_neighbors_eq_mineCount ds M c hc]
            refine List.countP_congr ?_
            intro nb hnb
            have hnbB : inBds ds nb = true :=
              nearBds_imp_inBds ds c nb
                ((mem_get_neighbors (inBds_lengths ds c hc)).mp hnb).1
            obtain ⟨cn, hgn, hiffn⟩ := hinv nb hnbB
            rw [hgn]
            cases cn with
            | mine => simp [isMineOpt, isMineVal, hiffn.mp rfl]
            | num j =>
                have : nb ∉ M := fun h => by cases hiffn.mpr h
                simp [isMineOpt, isMineVal, this]
          obtain ⟨b1, hset, hsh1, hchar⟩ :=
            set_value_spec ds b c (Cell.num (mineCount ds M c)) hb hc hne
          have hinv1 : ∀ x, inBds ds x = true →
              ∃ cx, get_value b1 x = some (Vec.leaf cx) ∧
                ((cx = Cell.mine) ↔ x ∈ M) := by
            intro x hx
            by_cases hxc : x = c
            · subst hxc
              refine ⟨Cell.num (mineCount ds M x), ?_, ?_⟩
              · rw [hchar x hx, if_pos rfl]
              · constructor
                · intro h; cases h
                · intro h; exact absurd h hcM
            · obtain ⟨cx, hgx, hiffx⟩ := hinv x hx
              refine ⟨cx, ?_, hiffx⟩
              rw [hchar x hx, if_neg hxc]
              exact hgx
          obtain ⟨b', hrest, hsh', h1, h2, h3⟩ :=
            ih b1 hsh1 (fun x hx => hL x (List.mem_cons_of_mem _ hx)) hinv1
          refine ⟨b', ?_, hsh', ?_, ?_, ?_⟩
          · rw [show fillCounts ds b (c :: L)
                = (get_value b c).bind (fun v =>
                    if isMineVal v = true then fillCounts ds b L
                    else (set_value b c (Cell.num (List.countP
                      (fun neighbor => isMineOpt (get_value b neighbor))
                      (get_neighbors ds c)))).bind
                      (fun b1 => fillCounts ds b1 L)) from rfl,
              hgc, Option.some_bind, if_neg (by simp [isMineVal]), hcnt, hset,
              Option.some_bind]
            exact hrest
          · intro x hx hxM
            have hxc : x ≠ c := fun h => hcM (h ▸ hxM)
            rw [h1 x hx hxM, hchar x hx, if_neg hxc]
          · intro x hx hxM hxL
            rcases List.mem_cons.mp hxL with rfl | hxL'
            · by_cases hxL2 : x ∈ L
              · exact h2 x hx hxM hxL2
              · rw [h3 x hx hxM hxL2, hchar x hx, if_pos rfl]
            · exact h2 x hx hxM hxL'
          · intro x hx hxM hxL
            have hxc : x ≠ c := fun h => hxL (h ▸ List.mem_cons_self c L)
            rw [h3 x hx hxM (fun h => hxL (List.mem_cons_of_mem _ h)),
              hchar x hx, if_neg hxc]

/-- C1: for every dimension vector of rank ≥ 1 with positive entries and
every in-bounds mine list (duplicates tolerated), `new_game_nd` returns a
game whose board and visibility both have shape exactly the dimension
vector, whose visibility is all-false, whose state is `ongoing`, with the
mine sentinel exactly at the coordinates of the mine list and, at every
other coordinate, the number of its in-bounds Chebyshev neighbors belonging
to the mine list (`mineCount`, computed from the final mine placement). -/
theorem C1_new_game_nd (ds : List Nat) (M : List (List Int))
    (hne : ds ≠ []) (hpos : ∀ d ∈ ds, 0 < d)
    (hM : ∀ m ∈ M, inBds ds m = true) :
    ∃ g, new_game_nd ds M = some g ∧
      g.dimensions = ds ∧ g.state = GState.ongoing ∧
      shaped ds g.board = true ∧ shaped ds g.visible = true ∧
      (∀ c, inBds ds c = true → get_value g.visible c = some (Vec.leaf false)) ∧
      (∀ c, inBds ds c = true →
        get_value g.board c = some (Vec.leaf
          (if c ∈ M then Cell.mine else Cell.num (mineCount ds M c)))) := by
  obtain ⟨b1, hplace, hsh1, hchar1⟩ :=
    placeMines_spec ds hne M (generate_nd_board ds (Cell.num 0))
      (generate_nd_board_shaped ds _) hM
  have hinv : ∀ x, inBds ds x = true →
      ∃ cx, get_value b1 x = some (Vec.leaf cx) ∧
        ((cx = Cell.mine) ↔ x ∈ M) := by
    intro x hx
    rw [hchar1 x hx]
    by_cases hxM : x ∈ M
    · rw [if_pos hxM]
      exact ⟨Cell.mine, rfl, by simp [hxM]⟩
    · rw [if_neg hxM, get_generate_nd_board ds _ x hx]
      refine ⟨Cell.num 0, rfl, ?_⟩
      constructor
      · intro h; cases h
      · intro h; exact absurd h hxM
  obtain ⟨b2, hfill, hsh2, h1, h2, h3⟩ :=
    fillCounts_spec ds hne M (get_all_coordinates ds) b1 hsh1
      (fun x hx => (mem_get_all_coordinates ds x).mp hx) hinv
  refine ⟨Game.mk ds b2 (generate_nd_board ds false) GState.ongoing,
    ?_, rfl, rfl, hsh2, generate_nd_board_shaped ds false, ?_, ?_⟩
  · rw [show new_game_nd ds M
        = (placeMines (generate_nd_board ds (Cell.num 0)) M).bind
            (fun nb => (fillCounts ds nb (get_all_coordinates ds)).bind
              (fun nb2 => some (Game.mk ds nb2
                (generate_nd_board ds false) GState.ongoing))) from rfl,
      hplace, Option.some_bind, hfill, Option.some_bind]
  · intro c hc
    exact get_generate_nd_board ds false c hc
  · intro c hc
    by_cases hcM : c ∈ M
    · rw [if_pos hcM, h1 c hc hcM, hchar1 c hc, if_pos hcM]
    · rw [if_neg hcM, h2 c hc hcM ((mem_get_all_coordinates ds c).mpr hc)]

theorem C1_witness :
    ∃ g, new_game_nd [2, 2] [[0, 0]] = some g ∧
      g.dimensions = [2, 2] ∧ g.state = GState.ongoing ∧
      shaped [2, 2] g.board = true ∧ shaped [2, 2] g.visible = true ∧
      (∀ c, inBds [2, 2] c = true →
        get_value g.visible c = some (Vec.leaf false)) ∧
      (∀ c, inBds [2, 2] c = true →
        get_value g.board c = some (Vec.leaf
          (if c ∈ [[0, 0]] then Cell.mine
           else Cell.num (mineCount [2, 2] [[0, 0]] c)))) :=
  C1_new_game_nd [2, 2] [[0, 0]] (by decide) (by decide) (by decide)

/-! ### Python negative-index semantics -/

theorem inBdsExt_nil_iff {c : List Int} : inBdsExt [] c = true ↔ c = [] := by
  cases c <;> simp [inBdsExt]

theorem inBdsExt_cons_iff {d : Nat} {ds : List Nat} {i : Int} {cs : List Int} :
    inBdsExt (d :: ds) (i :: cs) = true ↔
      -(d : Int) ≤ i ∧ i < (d : Int) ∧ inBdsExt ds cs = true := by
  simp [inBdsExt, and_assoc]

theorem inBdsExt_cons_ex {d : Nat} {ds : List Nat} {c : List Int}
    (h : inBdsExt (d :: ds) c = true) : ∃ i cs, c = i :: cs := by
  cases c with
  | nil => simp [inBdsExt] at h
  | cons i cs => exact ⟨i, cs, rfl⟩

theorem pyCanon_nil (c : List Int) : pyCanon [] c = [] := by
  simp [pyCanon]

theorem pyCanon_cons (d : Nat) (ds : List Nat) (i : Int) (cs : List Int) :
    pyCanon (d :: ds) (i :: cs)
      = (if i < 0 then i + (d : Int) else i) :: pyCanon ds cs := by
  simp [pyCanon]

theorem pyNorm_canon {d : Nat} {i : Int} (h1 : -(d : Int) ≤ i)
    (h2 : i < (d : Int)) :
    pyNorm d (if i < 0 then i + (d : Int) else i) = pyNorm d i := by
  by_cases h : i < 0
  · rw [if_pos h]
    unfold pyNorm
    rw [if_pos (by omega : (0 : Int) ≤ i + (d : Int)),
      if_pos (by omega : i + (d : Int) < (d : Int)),
      if_neg (by omega : ¬ (0 : Int) ≤ i),
      if_pos (by omega : (0 : Int) ≤ i + (d : Int))]
  · rw [if_neg h]

theorem inBds_pyCanon :
    ∀ (ds : List Nat) (c : List Int), inBdsExt ds c = true →
      inBds ds (pyCanon ds c) = true := by
  intro ds
  induction ds with
  | nil =>
      intro c hc
      obtain rfl := inBdsExt_nil_iff.mp hc
      simp [pyCanon, inBds]
  | cons d rest ih =>
      intro c hc
      obtain ⟨i, cs, rfl⟩ := inBdsExt_cons_ex hc
      obtain ⟨h1, h2, hcs⟩ := inBdsExt_cons_iff.mp hc
      rw [pyCanon_cons]
      refine inBds_cons_iff.mpr ⟨?_, ?_, ih cs hcs⟩
      · by_cases h : i < 0 <;> simp [h] <;> omega
      · by_cases h : i < 0 <;> simp [h] <;> omega

theorem get_value_canon {α : Type} :
    ∀ (ds : List Nat) (v : Vec α) (c : List Int),
      shaped ds v = true → inBdsExt ds c = true →
      get_value v c = get_value v (pyCanon ds c) := by
  intro ds
  induction ds with
  | nil =>
      intro v c _ hc
      obtain rfl := inBdsExt_nil_iff.mp hc
      rw [pyCanon_nil]
  | cons d rest ih =>
      intro v c hv hc
      obtain ⟨l, rfl, hlen, hall⟩ := shaped_cons_iff.mp hv
      obtain ⟨i, cs, rfl⟩ := inBdsExt_cons_ex hc
      obtain ⟨h1, h2, hcs⟩ := inBdsExt_cons_iff.mp hc
      rw [pyCanon_cons]
      rw [show get_value (Vec.node l) (i :: cs)
          = (pyNorm l.length i).bind (fun k => (l.get? k).bind
            (fun sub => get_value sub cs)) from rfl]
      rw [show get_value (Vec.node l)
            ((if i < 0 then i + (d : Int) else i) :: pyCanon rest cs)
          = (pyNorm l.length (if i < 0 then i + (d : Int) else i)).bind
            (fun k => (l.get? k).bind
              (fun sub => get_value sub (pyCanon rest cs))) from rfl]
      rw [show pyNorm l.length (if i < 0 then i + (d : Int) else i)
          = pyNorm l.length i by
        rw [hlen]
        exact pyNorm_canon (by omega) h2]
      cases hk : pyNorm l.length i with
      | none => rfl
      | some k =>
          rw [Option.some_bind, Option.some_bind]
          cases hsub : l.get? k with
          | none => rfl
          | some sub =>
              rw [Option.some_bind, Option.some_bind]
              exact ih sub cs (hall sub (List.get?_mem hsub)) hcs

theorem set_value_canon {α : Type} :
    ∀ (ds : List Nat) (v : Vec α) (c : List Int) (a : α),
      shaped ds v = true → inBdsExt ds c = true →
      set_value v c a = set_value v (pyCanon ds c) a := by
  intro ds
  induction ds with
  | nil =>
      intro v c a _ hc
      obtain rfl := inBdsExt_nil_iff.mp hc
      rw [pyCanon_nil]
  | cons d rest ih =>
      intro v c a hv hc
      obtain ⟨l, rfl, hlen, hall⟩ := shaped_cons_iff.mp hv
      obtain ⟨i, cs, rfl⟩ := inBdsExt_cons_ex hc
      obtain ⟨h1, h2, hcs⟩ := inBdsExt_cons_iff.mp hc
      rw [pyCanon_cons]
      have hnorm : pyNorm l.length (if i < 0 then i + (d : Int) else i)
          = pyNorm l.length i := by
        rw [hlen]
        exact pyNorm_canon (by omega) h2
      cases cs with
      | nil =>
          have hrestnil : rest = [] := by
            cases rest with
            | nil => rfl
            | cons a b => simp [inBdsExt] at hcs
          subst hrestnil
          rw [pyCanon_nil]
          rw [show set_value (Vec.node l) [i] a
              = (pyNorm l.length i).bind
                (fun k => some (Vec.node (l.set k (Vec.leaf a)))) from rfl]
          rw [show set_value (Vec.node l)
                [(if i < 0 then i + (d : Int) else i)] a
              = (pyNorm l.length (if i < 0 then i + (d : Int) else i)).bind
                (fun k => some (Vec.node (l.set k (Vec.leaf a)))) from rfl]
          rw [hnorm]
      | cons c2 cs' =>
          have hrest : rest ≠ [] := by
            cases rest with
            | nil => simp [inBdsExt] at hcs
            | cons a b => simp
          obtain ⟨d2, rest', rfl⟩ : ∃ d2 rest', rest = d2 :: rest' := by
            cases rest with
            | nil => exact absurd rfl hrest
            | cons a b => exact ⟨a, b, rfl⟩
          rw [pyCanon_cons]
          rw [show set_value (Vec.node l) (i :: c2 :: cs') a
              = (pyNorm l.length i).bind (fun k => (l.get? k).bind
                (fun sub => (set_value sub (c2 :: cs') a).bind
                  (fun sub' => some (Vec.node (l.set k sub'))))) from rfl]
          rw [show set_value (Vec.node l)
                ((if i < 0 then i + (d : Int) else i) ::
                  (if c2 < 0 then c2 + (d2 : Int) else c2) ::
                    pyCanon rest' cs') a
              = (pyNorm l.length (if i < 0 then i + (d : Int) else i)).bind
                (fun k => (l.get? k).bind
                  (fun sub => (set_value sub
                    ((if c2 < 0 then c2 + (d2 : Int) else c2) ::
                      pyCanon rest' cs') a).bind
                    (fun sub' => some (Vec.node (l.set k sub'))))) from rfl]
          rw [hnorm]
          cases hk : pyNorm l.length i with
          | none => rfl
          | some k =>
              rw [Option.some_bind, Option.some_bind]
              cases hsub : l.get? k with
              | none => rfl
              | some sub =>
                  rw [Option.some_bind, Option.some_bind]
                  have := ih sub (c2 :: cs') a
                    (hall sub (List.get?_mem hsub)) hcs
                  rw [pyCanon_cons] at this
                  rw [this]

theorem placeMines_canon (ds : List Nat) (hne : ds ≠ []) :
    ∀ (M : List (List Int)) (b : Vec Cell), shaped ds b = true →
      (∀ m ∈ M, inBdsExt ds m = true) →
      placeMines b M = placeMines b (M.map (pyCanon ds)) := by
  intro M
  induction M with
  | nil => intro b _ _; rfl
  | cons m M ih =>
      intro b hb hM
      have hmext := hM m (List.mem_cons_self m M)
      rw [List.map_cons]
      rw [show placeMines b (m :: M)
          = (set_value b m Cell.mine).bind (fun b1 => placeMines b1 M) from rfl]
      rw [show placeMines b (pyCanon ds m :: M.map (pyCanon ds))
          = (set_value b (pyCanon ds m) Cell.mine).bind
            (fun b1 => placeMines b1 (M.map (pyCanon ds))) from rfl]
      rw [← set_value_canon ds b m Cell.mine hb hmext]
      obtain ⟨b1', hset', hsh1', -⟩ :=
        set_value_spec ds b (pyCanon ds m) Cell.mine hb (inBds_pyCanon ds m hmext) hne
      rw [← set_value_canon ds b m Cell.mine hb hmext] at hset'
      rw [hset', Option.some_bind, Option.some_bind]
      exact ih b1' hsh1' (fun x hx => hM x (List.mem_cons_of_mem _ hx))

theorem new_game_canon (ds : List Nat) (M : List (List Int)) (hne : ds ≠ [])
    (hM : ∀ m ∈ M, inBdsExt ds m = true) :
    new_game_nd ds M = new_game_nd ds (M.map (pyCanon ds)) := by
  rw [show new_game_nd ds M
      = (placeMines (generate_nd_board ds (Cell.num 0)) M).bind
          (fun nb => (fillCounts ds nb (get_all_coordinates ds)).bind
            (fun nb2 => some (Game.mk ds nb2
              (generate_nd_board ds false) GState.ongoing))) from rfl]
  rw [show new_game_nd ds (M.map (pyCanon ds))
      = (placeMines (generate_nd_board ds (Cell.num 0)) (M.map (pyCanon ds))).bind
          (fun nb => (fillCounts ds nb (get_all_coordinates ds)).bind
            (fun nb2 => some (Game.mk ds nb2
              (generate_nd_board ds false) GState.ongoing))) from rfl]
  rw [placeMines_canon ds hne M (generate_nd_board ds (Cell.num 0))
    (generate_nd_board_shaped ds _) hM]

/-- C10: `get_value` and `set_value` index with Python list semantics, so a
coordinate component of `-1` silently addresses the last cell of its axis
instead of failing: on well-shaped arrays they agree with the canonicalized
coordinate (`pyCanon`, which adds the axis length to negative components),
and `new_game_nd` with mine coordinates in Python's extended bounds places
each mine at the canonicalized coordinate — for `-1`, the highest index of
that axis (`pyCanon [d] [-1] = [d - 1]`). -/
theorem C10_python_negative_indexing :
    (∀ (ds : List Nat) (v : Vec Cell) (c : List Int),
      shaped ds v = true → inBdsExt ds c = true →
      get_value v c = get_value v (pyCanon ds c)) ∧
    (∀ (ds : List Nat) (v : Vec Cell) (c : List Int) (a : Cell),
      shaped ds v = true → inBdsExt ds c = true →
      set_value v c a = set_value v (pyCanon ds c) a) ∧
    (∀ (ds : List Nat) (M : List (List Int)), ds ≠ [] →
      (∀ m ∈ M, inBdsExt ds m = true) →
      new_game_nd ds M = new_game_nd ds (M.map (pyCanon ds))) ∧
    (∀ d : Nat, 0 < d → pyCanon [d] [-1] = [(d : Int) - 1]) := by
  refine ⟨get_value_canon, set_value_canon,
    fun ds M hne hM => new_game_canon ds M hne hM, ?_⟩
  intro d _
  rw [pyCanon_cons, pyCanon_nil, if_pos (by omega : (-1 : Int) < 0)]
  rw [show (-1 : Int) + (d : Int) = (d : Int) - 1 by ring]

theorem C10_witness :
    (get_value (Vec.node [Vec.leaf (Cell.num 5), Vec.leaf (Cell.num 7)]) [-1]
      = get_value (Vec.node [Vec.leaf (Cell.num 5), Vec.leaf (Cell.num 7)])
          (pyCanon [2] [-1])) ∧
    (set_value (Vec.node [Vec.leaf (Cell.num 5), Vec.leaf (Cell.num 7)])
        [-1] Cell.mine
      = set_value (Vec.node [Vec.leaf (Cell.num 5), Vec.leaf (Cell.num 7)])
          (pyCanon [2] [-1]) Cell.mine) ∧
    (new_game_nd [3] [[-1]] = new_game_nd [3] (List.map (pyCanon [3]) [[-1]])) ∧
    pyCanon [3] [-1] = [(3 : Int) - 1] :=
  ⟨C10_python_negative_indexing.1 [2] _ [-1] (by decide) (by decide),
   C10_python_negative_indexing.2.1 [2] _ [-1] Cell.mine (by decide) (by decide),
   C10_python_negative_indexing.2.2.1 [3] [[-1]] (by decide) (by decide),
   C10_python_negative_indexing.2.2.2 3 (by decide)⟩
